import Mathlib

/-!
Verification development for the AVL-tree repository (canonical implementation
`src/AVLTree3.py`, plus the standalone finger-search variant `src/search.py`).

Embedding conventions
  * A Python `AVLNode` is `Node.node key value height left right`; the shared
    sentinel object `EXT` (key `None`, height `-1`) is `Node.ext`.  Keys and
    values are integers (the repository uses integer keys and opaque payloads).
  * The `height` attribute is stored verbatim (the *cached* height); whether it
    agrees with the true structural height is the invariant `heightsOk`.
  * Parent pointers are represented implicitly: every relink site in the source
    (`_connect_child`, `_delete_single_child`, the rotations, `join`) updates
    `child.parent` in the same statement that updates the parent's child slot,
    so child links determine parent links in every state the model visits.
    Upward `parent` walks (`_rebalance_upwards`) are therefore translated into
    structural recursion along the access path, applying the loop body
    (`fixNode`) at each ancestor from the point of change up to the root — the
    same nodes, in the same bottom-up order, as the Python loop.  The loop's
    extra visit to a rotation pivot (after a rotation, `current =
    current.parent` lands on the pivot that just replaced `current`) reapplies
    `update_height` to a node whose children are unchanged and retests a
    balance factor the rotation just restored, so it is the identity there and
    is not repeated in the model.
  * The tree object's `_max` attribute is a pointer to a node object.  The
    model stores the observable content of that pointer: the (key, value) pair
    currently held by the referenced object (`maxP`), `none` when `_max` is the
    sentinel.  Every assignment to `_max` in the source stores either a freshly
    inserted node or the result of `_find_new_max` (the rightmost real node),
    and `delete`'s successor swap can mutate the key of the object `_max`
    points to; both effects are mirrored field by field below.
  * `delete` and `split` receive a *node pointer*.  Under the BST invariant
    (distinct keys) a node in the tree is determined by its key, so the model
    takes the key and locates the node by the unique BST descent; theorems
    about these operations carry the BST hypothesis that makes this
    identification sound.  `delete`'s `None`/sentinel guard is modelled
    separately by `deleteArg`.
-/

namespace AVL3

/-- Model of `AVLNode` (src/AVLTree3.py lines 5-45): a real node carries
`key`, `value`, the cached `height` attribute and two children; `ext` is the
shared sentinel `EXT` (key `None`, height `-1`, self-referential pointers). -/
inductive Node where
  | ext : Node
  | node (key : Int) (value : Int) (height : Int) (left right : Node) : Node
deriving DecidableEq, Repr

/-- Mirrors `AVLNode.is_real_node` (lines 21-26): real iff the key is not `None`. -/
def Node.is_real_node : Node → Bool
  | .ext => false
  | .node _ _ _ _ _ => true

/-- The cached `height` attribute; `-1` on the sentinel (constructor, line 15). -/
def Node.hF : Node → Int
  | .ext => -1
  | .node _ _ h _ _ => h

/-- Mirrors `AVLNode.get_balance_factor` (lines 28-35): `left.height -
right.height` for a real node, `0` for the sentinel, using cached heights. -/
def Node.get_balance_factor : Node → Int
  | .ext => 0
  | .node _ _ _ l r => l.hF - r.hF

/-- Mirrors `AVLNode.update_height` (lines 37-45): recompute this node's cached
height as `1 + max(left.height, right.height)`; sentinel stays at `-1`. -/
def Node.update_height : Node → Node
  | .ext => .ext
  | .node k v _ l r => .node k v (1 + max l.hF r.hF) l r

/-- Mirrors `AVLTree._rotate_left` (lines 439-464).  With pivot `r = node.right`
real: `node.right` becomes `r.left`, `node` becomes `r.left`'s... the pivot's
left child, and the two heights are recomputed child-first (`node` then the
pivot), exactly as in the source; with a sentinel pivot the call returns with
no change (line 441-442).  The parent relink (lines 454-461) is the implicit
re-plugging of the returned subtree at the same position. -/
def rotate_left : Node → Node
  | .ext => .ext
  | .node k v h l r =>
    match r with
    | .ext => .node k v h l r
    | .node rk rv rh rl rr =>
      Node.update_height (.node rk rv rh (Node.update_height (.node k v h l rl)) rr)

/-- Mirrors `AVLTree._rotate_right` (lines 466-488), the mirror image of
`rotate_left`. -/
def rotate_right : Node → Node
  | .ext => .ext
  | .node k v h l r =>
    match l with
    | .ext => .node k v h l r
    | .node lk lv lh ll lr =>
      Node.update_height (.node lk lv lh ll (Node.update_height (.node k v h lr r)))

/-- One iteration of the `_rebalance_upwards` loop body (lines 417-434) at the
current node: `update_height`, then if the balance factor is `+2` rotate right
(preceded by a left rotation of the left child when its balance factor is
negative), and symmetrically for `-2`. -/
def fixNode (t : Node) : Node :=
  match t.update_height with
  | .ext => .ext
  | .node k v h l r =>
    if (Node.node k v h l r).get_balance_factor = 2 then
      rotate_right (.node k v h (if l.get_balance_factor < 0 then rotate_left l else l) r)
    else if (Node.node k v h l r).get_balance_factor = -2 then
      rotate_left (.node k v h l (if r.get_balance_factor > 0 then rotate_right r else r))
    else
      .node k v h l r

/-- In-order traversal of (key, value) pairs over real nodes, mirroring
`avl_to_array` / `_inorder` (lines 391-404). -/
def inorder : Node → List (Int × Int)
  | .ext => []
  | .node k v _ l r => inorder l ++ (k, v) :: inorder r

/-- True structural height of a subtree (sentinel `-1`), independent of the
cached `height` attribute. -/
def realHeight : Node → Int
  | .ext => -1
  | .node _ _ _ l r => 1 + max (realHeight l) (realHeight r)

/-- Invariant 3 of the spec: every cached `height` attribute equals
`1 + max` of the children's cached heights (sentinel `-1`). -/
def heightsOk : Node → Bool
  | .ext => true
  | .node _ _ h l r => (h == 1 + max l.hF r.hF) && heightsOk l && heightsOk r

/-- Invariant 2 of the spec: every real node's balance factor (difference of
the children's cached heights) lies in `[-1, 1]`. -/
def balancedOk : Node → Bool
  | .ext => true
  | .node _ _ _ l r => (l.hF - r.hF ≤ 1) && (r.hF - l.hF ≤ 1) && balancedOk l && balancedOk r

/-- All keys in `t` are strictly below `b`. -/
def allLt (t : Node) (b : Int) : Bool :=
  match t with
  | .ext => true
  | .node k _ _ l r => (k < b) && allLt l b && allLt r b

/-- All keys in `t` are strictly above `b`. -/
def allGt (t : Node) (b : Int) : Bool :=
  match t with
  | .ext => true
  | .node k _ _ l r => (b < k) && allGt l b && allGt r b

/-- Invariant 1 of the spec: binary-search-tree order with strict inequalities
(no duplicate keys). -/
def bstOk : Node → Bool
  | .ext => true
  | .node k _ _ l r => allLt l k && allGt r k && bstOk l && bstOk r

/-- The (key, value) pair of the rightmost real node, mirroring the walk of
`_find_new_max` (lines 527-538): from a real root follow `right` while it is
real; `none` for the sentinel. -/
def rightmostPair : Node → Option (Int × Int)
  | .ext => none
  | .node k v _ _ r => if r.is_real_node then rightmostPair r else some (k, v)

/-- The (key, value) pair of the leftmost real node, mirroring
`_get_min_subtree` (lines 518-525). -/
def leftmostPair : Node → Option (Int × Int)
  | .ext => none
  | .node k v _ l _ => if l.is_real_node then leftmostPair l else some (k, v)

/-- Model of the `AVLTree` object state (lines 61-65): `_root`, the `_size`
counter, and the observable content of the `_max` pointer (see the header
comment: the key/value pair held by the object `_max` references, `none` when
it is the sentinel). -/
structure AVLTree where
  root : Node
  size : Int
  maxP : Option (Int × Int)
deriving DecidableEq, Repr

/-- A fresh empty tree (`AVLTree.__init__`). -/
def emptyT : AVLTree := { root := .ext, size := 0, maxP := none }

/-- Key component of the `_max` pointer's content. -/
def maxKeyOf (t : AVLTree) : Option Int := t.maxP.map Prod.fst

/-- Descent loop shared by `AVLTree.search` (src/AVLTree3.py lines 99-111) and
`_search_from_node` (src/search.py lines 11-22): standard BST descent from a
starting node with the edge counter `e` already primed; the counter is
incremented after each move, including the final move into the sentinel on an
unsuccessful search. -/
def searchFrom : Node → Int → Nat → Option (Int × Int) × Nat
  | .ext, _, e => (none, e)
  | .node k v _ l r, key, e =>
    if key = k then (some (k, v), e)
    else if key < k then searchFrom l key (e + 1)
    else searchFrom r key (e + 1)

/-- Mirrors `AVLTree.search` (lines 89-111): empty tree reports `(None, 1)`,
otherwise the descent starts at the root with `edges = 1`. -/
def search (t : AVLTree) (key : Int) : Option (Int × Int) × Nat :=
  if t.root.is_real_node then searchFrom t.root key 1 else (none, 1)

/-- Mirrors `_search_from_node` of src/search.py (lines 1-22): same loop, and a
sentinel start returns `(EXT, 1)`. -/
def search_from_node (t : Node) (key : Int) : Option (Int × Int) × Nat :=
  searchFrom t key 1

/-- The subtrees rooted at the nodes of the right spine (root first, rightmost
real node — the `_max` node — last).  The ancestors of `_max` are exactly
these nodes, so the `parent` climb of finger search walks this list from the
deep end. -/
def rightSpine : Node → List Node
  | .ext => []
  | .node k v h l r => Node.node k v h l r :: rightSpine r

/-- Key of a real node (junk `0` on the sentinel, which never reaches the
call sites below). -/
def Node.keyD : Node → Int
  | .ext => 0
  | .node k _ _ _ _ => k

/-- The parent climb of `finger_search` (src/search.py lines 46-51): from the
`_max` node move to the parent while the sought key is less than the current
key, one edge per step; climbing past the root lands on the root's parent,
the sentinel.  The argument list is the right spine deepest-first. -/
def climb : List Node → Int → Nat → Node × Nat
  | [], _, e => (.ext, e)
  | s :: rest, key, e =>
    if key < s.keyD then climb rest key (e + 1) else (s, e)

/-- Mirrors `finger_search` of src/search.py (lines 35-54): empty tree reports
`(EXT, 1)`; otherwise climb from `_max` toward the root while the key is
smaller, then resume the standard descent from the stopping node, combining
the two edge counts with the shared `+1` normalisation.  (`_max` is the
sentinel exactly when the tree is empty in every state the model visits, so
the guard tests the root.) -/
def finger_search (t : AVLTree) (key : Int) : Option (Int × Int) × Nat :=
  if t.root.is_real_node then
    let c := climb (rightSpine t.root).reverse key 1
    let s := search_from_node c.1 key
    (s.1, c.2 + s.2 - 1)
  else (none, 1)

/-- The insertion descent of `AVLTree.insert` (lines 159-178) fused with the
upward rebalancing walk (line 186: `_rebalance_upwards(new_node)`), which
applies the loop body at every ancestor on the descent path from the attach
point back to the root.  The walk's first iteration, at the fresh leaf itself,
recomputes height `0` and balance factor `0` and is the identity, so the
recursion starts the fixups at the attach parent.  The second component counts
the loop iterations; the reported edge count is `1 +` iterations (lines
160-162).  The sentinel case is unreachable (the loop only descends into real
children) and attaches directly. -/
def insertGo : Node → Int → Int → Node × Nat
  | .ext, k, v => (.node k v 0 .ext .ext, 0)
  | .node nk nv nh l r, k, v =>
    if k < nk then
      if l.is_real_node then
        let p := insertGo l k v
        (fixNode (.node nk nv nh p.1 r), p.2 + 1)
      else (fixNode (.node nk nv nh (.node k v 0 .ext .ext) r), 1)
    else
      if r.is_real_node then
        let p := insertGo r k v
        (fixNode (.node nk nv nh l p.1), p.2 + 1)
      else (fixNode (.node nk nv nh l (.node k v 0 .ext .ext)), 1)

/-- The attach phase of `AVLTree.insert` alone (lines 159-178, before the
rebalancing walk): the new node is created as `AVLNode(key, value)` (height 0)
and `_connect_child` gives it sentinel children. -/
def attachGo : Node → Int → Int → Node
  | .ext, k, v => .node k v 0 .ext .ext
  | .node nk nv nh l r, k, v =>
    if k < nk then
      if l.is_real_node then .node nk nv nh (attachGo l k v) r
      else .node nk nv nh (.node k v 0 .ext .ext) r
    else
      if r.is_real_node then .node nk nv nh l (attachGo r k v)
      else .node nk nv nh l (.node k v 0 .ext .ext)

/-- Mirrors `AVLTree.insert` (lines 145-187): empty tree installs the new leaf
as root via `_connect_as_root` (size 1, `_max` the new node, edge count 1);
otherwise descend and attach, increment `_size`, update `_max` when the new
key exceeds the current maximum (or `_max` was the sentinel), and rebalance.
The returned number is the edge count `e`; the promote counter `h`, which no
verified property mentions, is not modelled. -/
def insert (t : AVLTree) (k v : Int) : AVLTree × Nat :=
  if t.root.is_real_node then
    let p := insertGo t.root k v
    ({ root := p.1, size := t.size + 1,
       maxP := match t.maxP with
         | some m => if k > m.1 then some (k, v) else some m
         | none => some (k, v) },
     1 + p.2)
  else ({ root := .node k v 0 .ext .ext, size := 1, maxP := some (k, v) }, 1)

/-- Mirrors `AVLTree.finger_insert` (lines 189-226): the descent starts at the
`_max` node — the rightmost real node — and, like the source loop, only moves
into children, never to a parent.  The ancestors of `_max` lie on the
rebalancing path of `_rebalance_upwards(new_node)` and receive their fixups on
the unwind, but contribute no edges to the count. -/
def fingerSpineGo : Node → Int → Int → Node × Nat
  | .ext, k, v => (.node k v 0 .ext .ext, 0)
  | .node nk nv nh l r, k, v =>
    if r.is_real_node then
      let p := fingerSpineGo r k v
      (fixNode (.node nk nv nh l p.1), p.2)
    else
      insertGo (.node nk nv nh l r) k v

/-- Tree-level `finger_insert` (lines 189-226): empty tree as in `insert`;
otherwise descend from `_max`, increment `_size` (line 221), and update `_max`
under the same condition as `insert` (line 222). -/
def finger_insert (t : AVLTree) (k v : Int) : AVLTree × Nat :=
  if t.root.is_real_node then
    let p := fingerSpineGo t.root k v
    ({ root := p.1, size := t.size + 1,
       maxP := match t.maxP with
         | some m => if k > m.1 then some (k, v) else some m
         | none => some (k, v) },
     1 + p.2)
  else ({ root := .node k v 0 .ext .ext, size := 1, maxP := some (k, v) }, 1)

/-- Successor extraction for the two-children case of `delete` (lines
243-249): `_get_min_subtree` descends `left` links; the successor (no real
left child) is spliced out by `_delete_single_child`, which links its right
child to its parent and rebalances from that parent — the `fixNode` fixups on
the unwind.  The sentinel case is unreachable (only called on a real right
child). -/
def removeMin : Node → (Int × Int) × Node
  | .ext => ((0, 0), .ext)
  | .node k v h l r =>
    if l.is_real_node then
      let p := removeMin l
      (p.1, fixNode (.node k v h p.2 r))
    else ((k, v), r)

/-- Core of `AVLTree.delete` (lines 232-253) on the node holding `key`
(pointer identification, see header).  At the node: with at most one real
child, splice in the child (`_delete_single_child`, lines 255-280) — the
rebalancing walk starts at the former parent, i.e. at the caller's `fixNode`;
with two real children, swap in the successor's pair and splice the successor
out of the right subtree, rebalancing from the successor's former parent up
through this node.  (When the spliced node is the root the source runs one
extra identity iteration of the walk at the replacing child, line 268; see the
header comment.)  The sentinel case is unreachable when the key is present. -/
def delGo : Node → Int → Node
  | .ext, _ => .ext
  | .node nk nv nh l r, key =>
    if key < nk then fixNode (.node nk nv nh (delGo l key) r)
    else if nk < key then fixNode (.node nk nv nh l (delGo r key))
    else if !l.is_real_node || !r.is_real_node then
      (if l.is_real_node then l else r)
    else
      let p := removeMin r
      fixNode (.node p.1.1 p.1.2 nh l p.2)

/-- The subtree rooted at the node holding `key` (BST descent; sentinel when
the key is absent). -/
def nodeAt : Node → Int → Node
  | .ext, _ => .ext
  | .node nk nv nh l r, key =>
    if key < nk then nodeAt l key
    else if nk < key then nodeAt r key
    else .node nk nv nh l r

/-- Value held at `key` (BST descent). -/
def lookupV (t : Node) (key : Int) : Option Int :=
  match nodeAt t key with
  | .ext => none
  | .node _ v _ _ _ => some v

/-- Whether the node holding `key` has two real children (the successor-swap
branch test of `delete`, line 240). -/
def hasTwoAt (t : Node) (key : Int) : Bool :=
  match nodeAt t key with
  | .ext => false
  | .node _ _ _ l r => l.is_real_node && r.is_real_node

/-- The in-order successor pair used by the swap (line 244): the leftmost pair
of the node's right subtree. -/
def succPairAt (t : Node) (key : Int) : Option (Int × Int) :=
  match nodeAt t key with
  | .ext => none
  | .node _ _ _ _ r => leftmostPair r

/-- Tree-level `AVLTree.delete` (lines 232-253) on the node holding `key`.
The final `if node == self._max` (line 252) compares the argument *object*
with the `_max` *object*: under the invariant that `_max` references the
rightmost in-tree node this is the test `key = _max key` in the
at-most-one-child case; in the successor-swap case the argument (which keeps
two children) is never the `_max` object, but the *successor* object can be —
the swap then leaves `_max` referencing a node that is spliced out of the tree
while holding the argument's old pair, and no recomputation happens. -/
def deleteMaxP (t : AVLTree) (key : Int) : Option (Int × Int) :=
  if hasTwoAt t.root key then
    match succPairAt t.root key, t.maxP with
    | some s, some m =>
      if s.1 = m.1 then some (key, (lookupV t.root key).getD 0)
      else if key = m.1 then rightmostPair (delGo t.root key) else some m
    | _, m => m
  else
    match t.maxP with
    | some m => if key = m.1 then rightmostPair (delGo t.root key) else some m
    | none => none

def deleteT (t : AVLTree) (key : Int) : AVLTree :=
  { root := delGo t.root key, size := t.size - 1, maxP := deleteMaxP t key }

/-- The argument guard of `AVLTree.delete` (lines 236-237): `None` or a
non-real node returns immediately with the whole tree state unchanged
(`is_real_node` is false exactly on the sentinel). -/
def deleteArg (t : AVLTree) (arg : Option Node) : AVLTree :=
  match arg with
  | none => t
  | some .ext => t
  | some (.node k _ _ _ _) => deleteT t k

/-- Right-spine walk and graft of `AVLTree.join` for the `h1 > h2` branch
(lines 310-331): walk down while `curr.height ≠ h2` and `curr.right` is real
with cached height `≥ h2`; at the stop, `curr.right` is replaced by a new node
holding `(k, v)` with the displaced `curr.right` as left child and `tree2`'s
root as right child; `_rebalance_upwards(new_node)` then fixes the new node
and every spine ancestor. -/
def joinRight (t1 : Node) (h2 : Int) (k v : Int) (t2 : Node) : Node :=
  match t1 with
  | .ext => fixNode (.node k v 0 .ext t2)
  | .node ck cv ch cl cr =>
    if ch = h2 then
      fixNode (.node ck cv ch cl (fixNode (.node k v 0 cr t2)))
    else if cr.is_real_node && cr.hF ≥ h2 then
      fixNode (.node ck cv ch cl (joinRight cr h2 k v t2))
    else
      fixNode (.node ck cv ch cl (fixNode (.node k v 0 cr t2)))

/-- Mirror image for the `h1 ≤ h2` branch of `join` (lines 332-355): descend
`tree2`'s left spine and graft `self` as the left child of the new node. -/
def joinLeft (t2 : Node) (h1 : Int) (k v : Int) (t1 : Node) : Node :=
  match t2 with
  | .ext => fixNode (.node k v 0 t1 .ext)
  | .node ck cv ch cl cr =>
    if ch = h1 then
      fixNode (.node ck cv ch (fixNode (.node k v 0 t1 cl)) cr)
    else if cl.is_real_node && cl.hF ≥ h1 then
      fixNode (.node ck cv ch (joinLeft cl h1 k v t1) cr)
    else
      fixNode (.node ck cv ch (fixNode (.node k v 0 t1 cl)) cr)

/-- Mirrors `AVLTree.join` (lines 286-358).  An empty `self` inserts `(k, v)`
into `tree2` and adopts its fields (lines 292-297); an empty `tree2` is a
plain insert into `self` (lines 300-302).  Otherwise the shorter tree is
grafted into the taller along the adjacent spine — note the code always puts
`tree2` on the *right* (resp. `self` on the *left*): the direction is fixed by
argument order, not detected — sizes are summed plus one (lines 329, 351-355)
and `_max` is recomputed by `_find_new_max` (line 358). -/
def join (t1 t2 : AVLTree) (k v : Int) : AVLTree :=
  if t1.root.is_real_node = false then (insert t2 k v).1
  else if t2.root.is_real_node = false then (insert t1 k v).1
  else if t1.root.hF > t2.root.hF then
    let r' := joinRight t1.root t2.root.hF k v t2.root
    { root := r', size := t1.size + t2.size + 1, maxP := rightmostPair r' }
  else
    let r' := joinLeft t2.root t1.root.hF k v t1.root
    { root := r', size := t1.size + t2.size + 1, maxP := rightmostPair r' }

/-- Repeated insertion (the rebuild loops of `split`, lines 380-383). -/
def insFold (t : AVLTree) (ps : List (Int × Int)) : AVLTree :=
  ps.foldl (fun acc p => (insert acc p.1 p.2).1) t

/-- Mirrors `AVLTree.split` (lines 360-385): delete the node, serialise the
remainder in order, cut the array by scanning while `arr[pivot][0] <
node.key` — `node.key` is read *after* the delete, so in the successor-swap
case the node object holds the successor's key — and rebuild both sides by
repeated insertion into fresh trees.  The index scan on the sorted array is
`takeWhile` / `dropWhile`. -/
def split (t : AVLTree) (key : Int) : AVLTree × AVLTree :=
  let pivot := if hasTwoAt t.root key then ((succPairAt t.root key).getD (0, 0)).1 else key
  let arr := inorder (deleteT t key).root
  (insFold emptyT (arr.takeWhile (fun p => p.1 < pivot)),
   insFold emptyT (arr.dropWhile (fun p => p.1 < pivot)))

/-- Sorted-position insertion of a pair into a key-sorted association list
(specification device for stating where `insert` attaches). -/
def listIns (k v : Int) : List (Int × Int) → List (Int × Int)
  | [] => [(k, v)]
  | p :: rest => if k < p.1 then (k, v) :: p :: rest else p :: listIns k v rest

/-- Removal of the first pair holding key `k` (specification device for
stating what `delete` removes). -/
def listDel (k : Int) : List (Int × Int) → List (Int × Int)
  | [] => []
  | p :: rest => if p.1 = k then rest else p :: listDel k rest

/-- A one-hole context frame: the data of an ancestor node together with the
sibling subtree (`inL`: the hole is the left child). -/
inductive Frame where
  | inL (key value height : Int) (sib : Node) : Frame
  | inR (key value height : Int) (sib : Node) : Frame
deriving DecidableEq, Repr

/-- Plug a subtree into a stack of frames (innermost first), rebuilding the
whole tree the subtree sits in; the source's rotations perform exactly this
re-plugging through the `parent` relink (lines 454-461, 479-485). -/
def plug : Node → List Frame → Node
  | t, [] => t
  | t, .inL k v h sib :: ctx => plug (.node k v h t sib) ctx
  | t, .inR k v h sib :: ctx => plug (.node k v h sib t) ctx

/-- Record of assignments executed on a field of the sentinel object `EXT`:
`parentW` — some statement wrote `EXT.parent`; `otherW` — some statement wrote
`EXT.key`, `EXT.value`, `EXT.height`, `EXT.left` or `EXT.right`.  The `W`
functions below replay each operation's control flow and collect, for every
assignment statement of the source whose target expression can denote the
sentinel, whether it did; assignments whose target is a freshly created node
or a node the surrounding code has just matched as real are noted in comments
at each definition. -/
structure SW where
  parentW : Bool
  otherW : Bool
deriving DecidableEq, Repr

def SW.zero : SW := ⟨false, false⟩

def SW.u (a b : SW) : SW := ⟨a.parentW || b.parentW, a.otherW || b.otherW⟩

/-- Sentinel writes of `_rotate_left` (lines 439-464).  The only assignment
whose target can be the sentinel is `node.right.parent = node` (line 446),
whose target is the pivot's old left subtree; the remaining assignments target
`node`, the pivot (both matched real here — with a sentinel `node` or pivot
the function returns before any write, lines 440-442), or the parent, whose
write is guarded by the `parent == EXT` root branch (lines 455-461). -/
def rotateLeftW : Node → SW
  | .ext => SW.zero
  | .node _ _ _ _ .ext => SW.zero
  | .node _ _ _ _ (.node _ _ _ rl _) => ⟨!rl.is_real_node, false⟩

/-- Sentinel writes of `_rotate_right` (lines 466-488): the mirror image;
the exposed target is `node.left.parent = node` (line 472). -/
def rotateRightW : Node → SW
  | .ext => SW.zero
  | .node _ _ _ .ext _ => SW.zero
  | .node _ _ _ (.node _ _ _ _ lr) _ => ⟨!lr.is_real_node, false⟩

/-- Sentinel writes of one `_rebalance_upwards` iteration (lines 417-434):
`current.update_height()` writes the height of `current`, which the loop
condition has matched as real; rotations contribute their own records. -/
def fixNodeW (t : Node) : SW :=
  match t.update_height with
  | .ext => SW.zero
  | .node k v h l r =>
    if (Node.node k v h l r).get_balance_factor = 2 then
      if l.get_balance_factor < 0 then
        SW.u (rotateLeftW l) (rotateRightW (.node k v h (rotate_left l) r))
      else rotateRightW (.node k v h l r)
    else if (Node.node k v h l r).get_balance_factor = -2 then
      if r.get_balance_factor > 0 then
        SW.u (rotateRightW r) (rotateLeftW (.node k v h l (rotate_right r)))
      else rotateLeftW (.node k v h l r)
    else SW.zero

/-- Sentinel writes of the insertion descent plus its rebalancing walk:
`_connect_child` (lines 505-516) writes only the fresh node and the real
attach parent; the walk contributes `fixNodeW` at each ancestor (its first
iteration, at the fresh real leaf, writes that leaf's height only). -/
def insertGoW : Node → Int → Int → SW
  | .ext, _, _ => SW.zero
  | .node nk nv nh l r, k, v =>
    if k < nk then
      if l.is_real_node then
        SW.u (insertGoW l k v) (fixNodeW (.node nk nv nh (insertGo l k v).1 r))
      else fixNodeW (.node nk nv nh (.node k v 0 .ext .ext) r)
    else
      if r.is_real_node then
        SW.u (insertGoW r k v) (fixNodeW (.node nk nv nh l (insertGo r k v).1))
      else fixNodeW (.node nk nv nh l (.node k v 0 .ext .ext))

/-- Sentinel writes of `AVLTree.insert` (lines 145-187): `_connect_as_root`
(lines 494-503) writes only the fresh node. -/
def insertW (t : AVLTree) (k v : Int) : SW :=
  if t.root.is_real_node then insertGoW t.root k v else SW.zero

/-- Sentinel writes of `AVLTree.finger_insert` (lines 189-226). -/
def fingerSpineGoW : Node → Int → Int → SW
  | .ext, _, _ => SW.zero
  | .node nk nv nh l r, k, v =>
    if r.is_real_node then
      SW.u (fingerSpineGoW r k v) (fixNodeW (.node nk nv nh l (fingerSpineGo r k v).1))
    else insertGoW (.node nk nv nh l r) k v

def fingerInsertW (t : AVLTree) (k v : Int) : SW :=
  if t.root.is_real_node then fingerSpineGoW t.root k v else SW.zero

/-- The node object `_get_min_subtree` returns (lines 518-525). -/
def leftmostNode : Node → Node
  | .ext => .ext
  | .node k v h l r => if l.is_real_node then leftmostNode l else .node k v h l r

/-- Sentinel writes of splicing the successor out (the `_delete_single_child`
call of line 249 plus its rebalancing walk): the successor always has a real
parent here, so the splice executes `parent.left = child` (real target) and
`child.parent = parent` (line 277) — whose target is the successor's right
child and can be the sentinel. -/
def removeMinW : Node → SW
  | .ext => SW.zero
  | .node k v h l r =>
    if l.is_real_node then
      SW.u (removeMinW l) (fixNodeW (.node k v h (removeMin l).2 r))
    else ⟨!r.is_real_node, false⟩

/-- Sentinel writes of `AVLTree.delete` (lines 232-280) on the node holding
`key`.  Non-root splice: `parent.left/right = child` targets the real parent
and `child.parent = parent` (line 277) targets the replacing child — sentinel
when the node was a leaf.  Root splice (lines 260-269): `self._root` is a tree
attribute and `child.parent = EXT` (line 264) is guarded by `child` being
real.  Successor swap (lines 244-247): the four assignments target the matched
real node and the successor object returned by `_get_min_subtree`. -/
def delGoW : Node → Int → Bool → SW
  | .ext, _, _ => SW.zero
  | .node nk nv nh l r, key, isRoot =>
    if key < nk then SW.u (delGoW l key false) (fixNodeW (.node nk nv nh (delGo l key) r))
    else if nk < key then SW.u (delGoW r key false) (fixNodeW (.node nk nv nh l (delGo r key)))
    else if !l.is_real_node || !r.is_real_node then
      (if isRoot then SW.zero
       else ⟨!(if l.is_real_node then l else r).is_real_node, false⟩)
    else
      SW.u ⟨false, !(leftmostNode r).is_real_node⟩
        (SW.u (removeMinW r)
          (fixNodeW (.node (removeMin r).1.1 (removeMin r).1.2 nh l (removeMin r).2)))

def deleteW (t : AVLTree) (key : Int) : SW := delGoW t.root key true

/-- Sentinel writes of the `h1 > h2` branch of `join` (lines 310-331): the
graft executes `new_node.left.parent = new_node` (line 322, target: the
displaced `curr.right`) and `new_node.right.parent = new_node` (line 324,
target: `tree2`'s root, real in this branch); `curr.right = new_node` and
`new_node.parent = curr` target real nodes; the rebalancing walk from the new
node contributes `fixNodeW` at the new node and each spine ancestor. -/
def joinRightW (t1 : Node) (h2 : Int) (k v : Int) (t2 : Node) : SW :=
  match t1 with
  | .ext => SW.u ⟨!t2.is_real_node, false⟩ (fixNodeW (.node k v 0 .ext t2))
  | .node ck cv ch cl cr =>
    if ch = h2 then
      SW.u ⟨!cr.is_real_node || !t2.is_real_node, false⟩
        (SW.u (fixNodeW (.node k v 0 cr t2))
          (fixNodeW (.node ck cv ch cl (fixNode (.node k v 0 cr t2)))))
    else if cr.is_real_node && cr.hF ≥ h2 then
      SW.u (joinRightW cr h2 k v t2) (fixNodeW (.node ck cv ch cl (joinRight cr h2 k v t2)))
    else
      SW.u ⟨!cr.is_real_node || !t2.is_real_node, false⟩
        (SW.u (fixNodeW (.node k v 0 cr t2))
          (fixNodeW (.node ck cv ch cl (fixNode (.node k v 0 cr t2)))))

/-- Mirror image for the `h1 ≤ h2` branch (lines 332-355, graft assignments
at lines 343-349). -/
def joinLeftW (t2 : Node) (h1 : Int) (k v : Int) (t1 : Node) : SW :=
  match t2 with
  | .ext => SW.u ⟨!t1.is_real_node, false⟩ (fixNodeW (.node k v 0 t1 .ext))
  | .node ck cv ch cl cr =>
    if ch = h1 then
      SW.u ⟨!cl.is_real_node || !t1.is_real_node, false⟩
        (SW.u (fixNodeW (.node k v 0 t1 cl))
          (fixNodeW (.node ck cv ch (fixNode (.node k v 0 t1 cl)) cr)))
    else if cl.is_real_node && cl.hF ≥ h1 then
      SW.u (joinLeftW cl h1 k v t1) (fixNodeW (.node ck cv ch (joinLeft cl h1 k v t1) cr))
    else
      SW.u ⟨!cl.is_real_node || !t1.is_real_node, false⟩
        (SW.u (fixNodeW (.node k v 0 t1 cl))
          (fixNodeW (.node ck cv ch (fixNode (.node k v 0 t1 cl)) cr)))

/-- Sentinel writes of `AVLTree.join` (lines 286-358). -/
def joinW (t1 t2 : AVLTree) (k v : Int) : SW :=
  if t1.root.is_real_node = false then insertW t2 k v
  else if t2.root.is_real_node = false then insertW t1 k v
  else if t1.root.hF > t2.root.hF then joinRightW t1.root t2.root.hF k v t2.root
  else joinLeftW t2.root t1.root.hF k v t1.root

/-- Sentinel writes of a run of insertions (the rebuild loops of `split`). -/
def insFoldW : AVLTree → List (Int × Int) → SW
  | _, [] => SW.zero
  | t, p :: rest => SW.u (insertW t p.1 p.2) (insFoldW (insert t p.1 p.2).1 rest)

/-- Sentinel writes of `AVLTree.split` (lines 360-385): the delete plus the
two rebuild loops (`avl_to_array` only reads). -/
def splitW (t : AVLTree) (key : Int) : SW :=
  let pivot := if hasTwoAt t.root key then ((succPairAt t.root key).getD (0, 0)).1 else key
  let arr := inorder (deleteT t key).root
  SW.u (deleteW t key)
    (SW.u (insFoldW emptyT (arr.takeWhile (fun p => p.1 < pivot)))
      (insFoldW emptyT (arr.dropWhile (fun p => p.1 < pivot))))

/-- The public mutating operations quantified over by the invariant claims:
plain insert, finger insert, delete of the node holding a key, join with a
given second tree, and split continuing with the left or right output. -/
inductive Op where
  | ins (k v : Int) : Op
  | fins (k v : Int) : Op
  | del (k : Int) : Op
  | joinWith (t2 : AVLTree) (k v : Int) : Op
  | splitL (k : Int) : Op
  | splitR (k : Int) : Op
deriving DecidableEq, Repr

def applyOp (t : AVLTree) : Op → AVLTree
  | .ins k v => (insert t k v).1
  | .fins k v => (finger_insert t k v).1
  | .del k => deleteT t k
  | .joinWith t2 k v => join t t2 k v
  | .splitL k => (split t k).1
  | .splitR k => (split t k).2

def run (t : AVLTree) (ops : List Op) : AVLTree := ops.foldl applyOp t

/-- The keys currently stored in the tree. -/
def keysOf (t : AVLTree) : List Int := (inorder t.root).map Prod.fst

/-- The five structural invariants of spec section 3 that the functional
embedding can express: BST order, AVL balance of the cached heights, cached
heights equal to `1 + max` of the children's, `_size` equal to the number of
real reachable nodes, and `_max` holding the rightmost real node's pair
(`none` iff empty).  Invariant 6 (parent pointers mirror child pointers) is
maintained by the representation itself — see the header comment. -/
def Inv (t : AVLTree) : Prop :=
  bstOk t.root = true ∧ heightsOk t.root = true ∧ balancedOk t.root = true ∧
    t.size = ((inorder t.root).length : Int) ∧ t.maxP = rightmostPair t.root

/-- Precondition of each operation in the amended invariant claim: inserted
keys are fresh; deleted and split keys are present; `delete` does not hit the
case in which the in-order successor of a doubly-childed target is the `_max`
node (which detaches `_max`, see `deleteT`); `finger_insert` and `join` are
excluded (each breaks one of the invariants on valid inputs — see the
counterexample theorems). -/
def validOpA (t : AVLTree) : Op → Bool
  | .ins k _ => !decide (k ∈ keysOf t)
  | .fins _ _ => false
  | .del k => decide (k ∈ keysOf t) &&
      !(hasTwoAt t.root k && decide ((succPairAt t.root k).map Prod.fst = maxKeyOf t))
  | .joinWith _ _ _ => false
  | .splitL k => decide (k ∈ keysOf t)
  | .splitR k => decide (k ∈ keysOf t)

def validSeqA : AVLTree → List Op → Bool
  | _, [] => true
  | t, op :: rest => validOpA t op && validSeqA (applyOp t op) rest

/-! Basic structural lemmas. -/

lemma inorder_update_height (t : Node) : inorder t.update_height = inorder t := by
  cases t <;> rfl

lemma inorder_rotate_left (t : Node) : inorder (rotate_left t) = inorder t := by
  cases t with
  | ext => rfl
  | node k v h l r =>
    cases r with
    | ext => rfl
    | node rk rv rh rl rr =>
      simp [rotate_left, Node.update_height, inorder, List.append_assoc]

lemma inorder_rotate_right (t : Node) : inorder (rotate_right t) = inorder t := by
  cases t with
  | ext => rfl
  | node k v h l r =>
    cases l with
    | ext => rfl
    | node lk lv lh ll lr =>
      simp [rotate_right, Node.update_height, inorder, List.append_assoc]

lemma inorder_fixNode (t : Node) : inorder (fixNode t) = inorder t := by
  cases t with
  | ext => rfl
  | node k v h l r =>
    simp only [fixNode, Node.update_height]
    split_ifs <;>
      simp [inorder_rotate_right, inorder_rotate_left, inorder]

lemma plug_congr (ctx : List Frame) (a b : Node) (h : inorder a = inorder b) :
    inorder (plug a ctx) = inorder (plug b ctx) := by
  induction ctx generalizing a b with
  | nil => exact h
  | cons f rest ih =>
    cases f with
    | inL k v hh sib => exact ih _ _ (by simp [inorder, h])
    | inR k v hh sib => exact ih _ _ (by simp [inorder, h])

lemma heightsOk_node_iff (k v h : Int) (l r : Node) :
    heightsOk (.node k v h l r) = true ↔
      h = 1 + max l.hF r.hF ∧ heightsOk l = true ∧ heightsOk r = true := by
  simp [heightsOk, Bool.and_eq_true, beq_iff_eq, and_assoc]

lemma balancedOk_node_iff (k v h : Int) (l r : Node) :
    balancedOk (.node k v h l r) = true ↔
      l.hF - r.hF ≤ 1 ∧ r.hF - l.hF ≤ 1 ∧ balancedOk l = true ∧ balancedOk r = true := by
  simp [balancedOk, Bool.and_eq_true, decide_eq_true_eq, and_assoc]

lemma hF_eq_realHeight (t : Node) (h : heightsOk t = true) : t.hF = realHeight t := by
  induction t with
  | ext => rfl
  | node k v hh l r ihl ihr =>
    rw [heightsOk_node_iff] at h
    simp only [Node.hF, realHeight]
    rw [h.1, ihl h.2.1, ihr h.2.2]

lemma allLt_iff (t : Node) (b : Int) : allLt t b = true ↔ ∀ p ∈ inorder t, p.1 < b := by
  induction t with
  | ext => simp [allLt, inorder]
  | node k v h l r ihl ihr =>
    simp only [allLt, inorder, Bool.and_eq_true, decide_eq_true_eq, ihl, ihr,
      List.mem_append, List.mem_cons]
    constructor
    · rintro ⟨⟨hk, hl⟩, hr⟩ p hp
      rcases hp with hp | hp | hp
      · exact hl p hp
      · simpa [hp]
      · exact hr p hp
    · intro h
      exact ⟨⟨by simpa using h (k, v) (Or.inr (Or.inl rfl)),
        fun p hp => h p (Or.inl hp)⟩, fun p hp => h p (Or.inr (Or.inr hp))⟩

lemma allGt_iff (t : Node) (b : Int) : allGt t b = true ↔ ∀ p ∈ inorder t, b < p.1 := by
  induction t with
  | ext => simp [allGt, inorder]
  | node k v h l r ihl ihr =>
    simp only [allGt, inorder, Bool.and_eq_true, decide_eq_true_eq, ihl, ihr,
      List.mem_append, List.mem_cons]
    constructor
    · rintro ⟨⟨hk, hl⟩, hr⟩ p hp
      rcases hp with hp | hp | hp
      · exact hl p hp
      · simpa [hp]
      · exact hr p hp
    · intro h
      exact ⟨⟨by simpa using h (k, v) (Or.inr (Or.inl rfl)),
        fun p hp => h p (Or.inl hp)⟩, fun p hp => h p (Or.inr (Or.inr hp))⟩

lemma bstOk_iff_pairwise (t : Node) :
    bstOk t = true ↔ (inorder t).Pairwise (fun p q => p.1 < q.1) := by
  induction t with
  | ext => simp [bstOk, inorder]
  | node k v h l r ihl ihr =>
    simp only [bstOk, inorder, Bool.and_eq_true, ihl, ihr, List.pairwise_append,
      List.pairwise_cons, allLt_iff, allGt_iff]
    constructor
    · rintro ⟨⟨⟨hlt, hgt⟩, hl⟩, hr⟩
      refine ⟨hl, ⟨fun q hq => hgt q hq, hr⟩, ?_⟩
      intro a ha b hb
      rcases List.mem_cons.mp hb with hb | hb
      · simpa [hb] using hlt a ha
      · exact lt_trans (hlt a ha) (hgt b hb)
    · rintro ⟨hl, ⟨hmid, hr⟩, hcross⟩
      refine ⟨⟨⟨fun p hp => ?_, fun q hq => hmid q hq⟩, hl⟩, hr⟩
      simpa using hcross p hp (k, v) (List.mem_cons_self _ _)

lemma inorder_eq_nil_iff (t : Node) : inorder t = [] ↔ t = .ext := by
  cases t with
  | ext => simp [inorder]
  | node k v h l r => simp [inorder]

lemma is_real_iff_ne_ext (t : Node) : t.is_real_node = true ↔ t ≠ .ext := by
  cases t <;> simp [Node.is_real_node]


lemma neg_one_le_realHeight (t : Node) : -1 ≤ realHeight t := by
  induction t with
  | ext => simp [realHeight]
  | node k v h l r ihl ihr => simp only [realHeight]; omega

lemma fixNode_eq_plain (k v h : Int) (l r : Node) (h1 : l.hF - r.hF ≠ 2)
    (h2 : l.hF - r.hF ≠ -2) :
    fixNode (.node k v h l r) = .node k v (1 + max l.hF r.hF) l r := by
  simp only [fixNode, Node.update_height]
  rw [if_neg (show ¬(Node.node k v (1 + max l.hF r.hF) l r).get_balance_factor = 2 by
        simpa [Node.get_balance_factor] using h1),
    if_neg (show ¬(Node.node k v (1 + max l.hF r.hF) l r).get_balance_factor = -2 by
        simpa [Node.get_balance_factor] using h2)]

lemma fixNode_eq_right (k v h : Int) (l r : Node) (h1 : l.hF - r.hF = 2)
    (h2 : ¬l.get_balance_factor < 0) :
    fixNode (.node k v h l r) = rotate_right (.node k v (1 + max l.hF r.hF) l r) := by
  simp only [fixNode, Node.update_height]
  rw [if_pos (show (Node.node k v (1 + max l.hF r.hF) l r).get_balance_factor = 2 by
        simpa [Node.get_balance_factor] using h1), if_neg h2]

lemma fixNode_eq_leftright (k v h : Int) (l r : Node) (h1 : l.hF - r.hF = 2)
    (h2 : l.get_balance_factor < 0) :
    fixNode (.node k v h l r) =
      rotate_right (.node k v (1 + max l.hF r.hF) (rotate_left l) r) := by
  simp only [fixNode, Node.update_height]
  rw [if_pos (show (Node.node k v (1 + max l.hF r.hF) l r).get_balance_factor = 2 by
        simpa [Node.get_balance_factor] using h1), if_pos h2]

lemma fixNode_eq_left (k v h : Int) (l r : Node) (h1 : l.hF - r.hF = -2)
    (h2 : ¬r.get_balance_factor > 0) :
    fixNode (.node k v h l r) = rotate_left (.node k v (1 + max l.hF r.hF) l r) := by
  simp only [fixNode, Node.update_height]
  rw [if_neg (show ¬(Node.node k v (1 + max l.hF r.hF) l r).get_balance_factor = 2 by
        simp [Node.get_balance_factor]; omega),
    if_pos (show (Node.node k v (1 + max l.hF r.hF) l r).get_balance_factor = -2 by
        simpa [Node.get_balance_factor] using h1), if_neg h2]

lemma fixNode_eq_rightleft (k v h : Int) (l r : Node) (h1 : l.hF - r.hF = -2)
    (h2 : r.get_balance_factor > 0) :
    fixNode (.node k v h l r) =
      rotate_left (.node k v (1 + max l.hF r.hF) l (rotate_right r)) := by
  simp only [fixNode, Node.update_height]
  rw [if_neg (show ¬(Node.node k v (1 + max l.hF r.hF) l r).get_balance_factor = 2 by
        simp [Node.get_balance_factor]; omega),
    if_pos (show (Node.node k v (1 + max l.hF r.hF) l r).get_balance_factor = -2 by
        simpa [Node.get_balance_factor] using h1), if_pos h2]

@[simp] lemma hF_ext : Node.hF .ext = -1 := rfl

@[simp] lemma hF_node (k v h : Int) (l r : Node) : Node.hF (.node k v h l r) = h := rfl

@[simp] lemma realHeight_ext : realHeight .ext = -1 := rfl

@[simp] lemma realHeight_node (k v h : Int) (l r : Node) :
    realHeight (.node k v h l r) = 1 + max (realHeight l) (realHeight r) := rfl

theorem fixNode_spec (k v h : Int) (l r : Node)
    (hl1 : heightsOk l = true) (hl2 : balancedOk l = true)
    (hr1 : heightsOk r = true) (hr2 : balancedOk r = true)
    (hd1 : realHeight l - realHeight r ≤ 2) (hd2 : realHeight r - realHeight l ≤ 2) :
    heightsOk (fixNode (.node k v h l r)) = true ∧
    balancedOk (fixNode (.node k v h l r)) = true ∧
    (realHeight (fixNode (.node k v h l r)) = 1 + max (realHeight l) (realHeight r) ∨
      ((realHeight l - realHeight r = 2 ∨ realHeight r - realHeight l = 2) ∧
        realHeight (fixNode (.node k v h l r)) = max (realHeight l) (realHeight r))) := by
  have hfl := hF_eq_realHeight l hl1
  have hfr := hF_eq_realHeight r hr1
  have hbl := neg_one_le_realHeight l
  have hbr := neg_one_le_realHeight r
  by_cases hc1 : l.hF - r.hF = 2
  · cases l with
    | ext => exfalso; simp only [hF_ext] at hc1; omega
    | node lk lv lh ll lr =>
      obtain ⟨e1, hll1, hlr1⟩ := (heightsOk_node_iff _ _ _ _ _).mp hl1
      obtain ⟨b1, b2, hll2, hlr2⟩ := (balancedOk_node_iff _ _ _ _ _).mp hl2
      have efll := hF_eq_realHeight ll hll1
      have eflr := hF_eq_realHeight lr hlr1
      have hbll := neg_one_le_realHeight ll
      have hblr := neg_one_le_realHeight lr
      simp only [hF_node] at hc1
      by_cases hc2 : (Node.node lk lv lh ll lr).get_balance_factor < 0
      · have hc2i : ll.hF - lr.hF < 0 := by
          simpa [Node.get_balance_factor] using hc2
        cases lr with
        | ext => exfalso; simp only [hF_ext] at hc2i; omega
        | node mk mv mh ml mr =>
          obtain ⟨e2, hml1, hmr1⟩ := (heightsOk_node_iff _ _ _ _ _).mp hlr1
          obtain ⟨c1, c2, hml2, hmr2⟩ := (balancedOk_node_iff _ _ _ _ _).mp hlr2
          have efml := hF_eq_realHeight ml hml1
          have efmr := hF_eq_realHeight mr hmr1
          have hbml := neg_one_le_realHeight ml
          have hbmr := neg_one_le_realHeight mr
          rw [fixNode_eq_leftright k v h _ r (by simp only [hF_node]; omega) hc2]
          simp only [rotate_left, rotate_right, Node.update_height]
          simp only [heightsOk_node_iff, balancedOk_node_iff]
          simp only [realHeight_node, realHeight_ext, hF_node, hF_ext] at *
          repeat' apply And.intro
          all_goals first | assumption | trivial | exact Or.inl trivial | omega
      · have hc2i : ¬ ll.hF - lr.hF < 0 := by
          simpa [Node.get_balance_factor] using hc2
        rw [fixNode_eq_right k v h _ r (by simp only [hF_node]; omega) hc2]
        simp only [rotate_right, Node.update_height]
        simp only [heightsOk_node_iff, balancedOk_node_iff]
        simp only [realHeight_node, realHeight_ext, hF_node, hF_ext] at *
        repeat' apply And.intro
        all_goals first | assumption | trivial | exact Or.inl trivial | omega
  · by_cases hc3 : l.hF - r.hF = -2
    · cases r with
      | ext => exfalso; simp only [hF_ext] at hc3; omega
      | node rk rv rh rl rr =>
        obtain ⟨e1, hrl1, hrr1⟩ := (heightsOk_node_iff _ _ _ _ _).mp hr1
        obtain ⟨b1, b2, hrl2, hrr2⟩ := (balancedOk_node_iff _ _ _ _ _).mp hr2
        have efrl := hF_eq_realHeight rl hrl1
        have efrr := hF_eq_realHeight rr hrr1
        have hbrl := neg_one_le_realHeight rl
        have hbrr := neg_one_le_realHeight rr
        simp only [hF_node] at hc3
        by_cases hc2 : (Node.node rk rv rh rl rr).get_balance_factor > 0
        · have hc2i : rl.hF - rr.hF > 0 := by
            simpa [Node.get_balance_factor] using hc2
          cases rl with
          | ext => exfalso; simp only [hF_ext] at hc2i; omega
          | node mk mv mh ml mr =>
            obtain ⟨e2, hml1, hmr1⟩ := (heightsOk_node_iff _ _ _ _ _).mp hrl1
            obtain ⟨c1, c2, hml2, hmr2⟩ := (balancedOk_node_iff _ _ _ _ _).mp hrl2
            have efml := hF_eq_realHeight ml hml1
            have efmr := hF_eq_realHeight mr hmr1
            have hbml := neg_one_le_realHeight ml
            have hbmr := neg_one_le_realHeight mr
            rw [fixNode_eq_rightleft k v h l _ (by simp only [hF_node]; omega) hc2]
            simp only [rotate_left, rotate_right, Node.update_height]
            simp only [heightsOk_node_iff, balancedOk_node_iff]
            simp only [realHeight_node, realHeight_ext, hF_node, hF_ext] at *
            repeat' apply And.intro
            all_goals first | assumption | trivial | exact Or.inl trivial | omega
        · have hc2i : ¬ rl.hF - rr.hF > 0 := by
            simpa [Node.get_balance_factor] using hc2
          rw [fixNode_eq_left k v h l _ (by simp only [hF_node]; omega) hc2]
          simp only [rotate_left, Node.update_height]
          simp only [heightsOk_node_iff, balancedOk_node_iff]
          simp only [realHeight_node, realHeight_ext, hF_node, hF_ext] at *
          repeat' apply And.intro
          all_goals first | assumption | trivial | exact Or.inl trivial | omega
    · rw [fixNode_eq_plain k v h l r hc1 hc3]
      simp only [heightsOk_node_iff, balancedOk_node_iff]
      simp only [realHeight_node, realHeight_ext, hF_node, hF_ext] at *
      repeat' apply And.intro
      all_goals first | assumption | trivial | exact Or.inl trivial | omega

end AVL3
namespace AVL3

lemma mem_listIns (q : Int × Int) (k v : Int) (ps : List (Int × Int)) :
    q ∈ listIns k v ps ↔ q = (k, v) ∨ q ∈ ps := by
  induction ps with
  | nil => simp [listIns]
  | cons p rest ih =>
    by_cases h : k < p.1
    · rw [listIns, if_pos h]
      simp only [List.mem_cons]
      try tauto
    · rw [listIns, if_neg h]
      simp only [List.mem_cons, ih]
      try tauto

lemma listIns_length (k v : Int) (ps : List (Int × Int)) :
    (listIns k v ps).length = ps.length + 1 := by
  induction ps with
  | nil => rfl
  | cons p rest ih => by_cases h : k < p.1 <;> simp [listIns, h, ih]

lemma listIns_append_lt (k v : Int) (A : List (Int × Int)) (x : Int × Int)
    (B : List (Int × Int)) (h : k < x.1) :
    listIns k v (A ++ x :: B) = listIns k v A ++ x :: B := by
  induction A with
  | nil => simp [listIns, h]
  | cons p A ih => by_cases hp : k < p.1 <;> simp [listIns, hp, ih]

lemma listIns_append_ge (k v : Int) (A : List (Int × Int)) (x : Int × Int)
    (B : List (Int × Int)) (hA : ∀ p ∈ A, ¬k < p.1) (hx : ¬k < x.1) :
    listIns k v (A ++ x :: B) = A ++ x :: listIns k v B := by
  induction A with
  | nil => simp [listIns, hx]
  | cons p A ih =>
    simp only [List.cons_append, listIns, if_neg (hA p (List.mem_cons_self p A))]
    exact congrArg (List.cons p) (ih (fun q hq => hA q (List.mem_cons_of_mem p hq)))

lemma listIns_pairwise (k v : Int) (ps : List (Int × Int))
    (h : ps.Pairwise (fun p q => p.1 < q.1)) (hk : k ∉ ps.map Prod.fst) :
    (listIns k v ps).Pairwise (fun p q => p.1 < q.1) := by
  induction ps with
  | nil => simp [listIns]
  | cons p rest ih =>
    rw [List.pairwise_cons] at h
    simp only [List.map_cons, List.mem_cons] at hk
    push_neg at hk
    by_cases hlt : k < p.1
    · rw [listIns, if_pos hlt, List.pairwise_cons]
      refine ⟨?_, List.pairwise_cons.mpr h⟩
      intro q hq
      rcases List.mem_cons.mp hq with hq | hq
      · simpa [hq]
      · exact lt_trans hlt (h.1 q hq)
    · rw [listIns, if_neg hlt, List.pairwise_cons]
      refine ⟨?_, ih h.2 hk.2⟩
      intro q hq
      rcases (mem_listIns q k v rest).mp hq with hq | hq
      · have : p.1 ≠ k := fun hh => hk.1 hh.symm
        simp only [hq]
        omega
      · exact h.1 q hq

lemma listIns_of_all_lt (k v : Int) (ps : List (Int × Int))
    (h : ∀ p ∈ ps, p.1 < k) : listIns k v ps = ps ++ [(k, v)] := by
  induction ps with
  | nil => rfl
  | cons p rest ih =>
    have := h p (List.mem_cons_self p rest)
    rw [listIns, if_neg (by omega), ih (fun q hq => h q (List.mem_cons_of_mem p hq))]
    rfl

lemma listIns_getLast_of_lt (k v : Int) (ps : List (Int × Int)) (x : Int × Int)
    (h : ps.getLast? = some x) (hk : k < x.1) :
    (listIns k v ps).getLast? = some x := by
  induction ps with
  | nil => simp at h
  | cons p rest ih =>
    by_cases hlt : k < p.1
    · rw [listIns, if_pos hlt]
      rw [List.getLast?_cons_cons, ← List.getLast?_cons_cons (a := p)]
      exact h
    · rw [listIns, if_neg hlt]
      cases rest with
      | nil =>
        simp only [List.getLast?_singleton] at h
        exfalso
        cases h
        exact hlt hk
      | cons q rest' =>
        rw [List.getLast?_cons_cons] at h
        have := ih h
        rw [List.getLast?_cons]
        rw [this]
        rfl

lemma listDel_sublist (k : Int) (ps : List (Int × Int)) : (listDel k ps).Sublist ps := by
  induction ps with
  | nil => simp [listDel]
  | cons p rest ih =>
    by_cases h : p.1 = k
    · rw [listDel, if_pos h]
      exact (List.sublist_cons_self p rest)
    · rw [listDel, if_neg h]
      exact ih.cons₂ p

lemma listDel_append_mem (k : Int) (A B : List (Int × Int)) (h : k ∈ A.map Prod.fst) :
    listDel k (A ++ B) = listDel k A ++ B := by
  induction A with
  | nil => simp at h
  | cons p A ih =>
    by_cases hp : p.1 = k
    · simp [listDel, hp]
    · simp only [List.map_cons, List.mem_cons] at h
      rcases h with h | h
      · exact absurd h.symm hp
      · simp [listDel, hp, ih h]

lemma listDel_append_not_mem (k : Int) (A B : List (Int × Int)) (h : k ∉ A.map Prod.fst) :
    listDel k (A ++ B) = A ++ listDel k B := by
  induction A with
  | nil => simp
  | cons p A ih =>
    simp only [List.map_cons, List.mem_cons] at h
    push_neg at h
    have hp : ¬p.1 = k := fun hh => h.1 hh.symm
    simp [listDel, hp, ih h.2]

lemma listDel_length (k : Int) (ps : List (Int × Int)) (h : k ∈ ps.map Prod.fst) :
    (listDel k ps).length + 1 = ps.length := by
  induction ps with
  | nil => simp at h
  | cons p rest ih =>
    by_cases hp : p.1 = k
    · simp [listDel, hp]
    · simp only [List.map_cons, List.mem_cons] at h
      rcases h with h | h
      · exact absurd h.symm hp
      · simp [listDel, hp, ih h]

lemma listDel_getLast (k : Int) (ps : List (Int × Int)) (x : Int × Int)
    (h : ps.getLast? = some x) (hk : k ≠ x.1) :
    (listDel k ps).getLast? = some x := by
  induction ps with
  | nil => simp at h
  | cons p rest ih =>
    cases rest with
    | nil =>
      simp only [List.getLast?_singleton] at h
      cases h
      rw [listDel, if_neg (fun hh => hk hh.symm)]
      rfl
    | cons q rest' =>
      rw [List.getLast?_cons_cons] at h
      by_cases hp : p.1 = k
      · rw [listDel, if_pos hp]
        exact h
      · rw [listDel, if_neg hp]
        have hrec := ih h
        rw [List.getLast?_cons, hrec]
        rfl

lemma bstOk_node_iff (k v h : Int) (l r : Node) :
    bstOk (.node k v h l r) = true ↔
      allLt l k = true ∧ allGt r k = true ∧ bstOk l = true ∧ bstOk r = true := by
  simp [bstOk, Bool.and_eq_true, and_assoc]

lemma insertGo_inorder (t : Node) (k v : Int) (hb : bstOk t = true) :
    inorder (insertGo t k v).1 = listIns k v (inorder t) := by
  induction t with
  | ext => simp [insertGo, inorder, listIns]
  | node nk nv nh l r ihl ihr =>
    obtain ⟨o1, o2, hbl, hbr⟩ := (bstOk_node_iff _ _ _ _ _).mp hb
    by_cases hk : k < nk
    · by_cases hlr : l.is_real_node = true
      · simp only [insertGo, if_pos hk, if_pos hlr, inorder_fixNode, inorder]
        rw [ihl hbl, listIns_append_lt k v _ (nk, nv) _ hk]
      · have hle : l = .ext := by
          cases l with
          | ext => rfl
          | node a b c d e => simp [Node.is_real_node] at hlr
        subst hle
        simp only [insertGo, if_pos hk, if_neg hlr, inorder_fixNode, inorder,
          List.nil_append]
        rw [listIns, if_pos hk]
        rfl
    · have hA : ∀ p ∈ inorder l, ¬k < p.1 := by
        intro p hp
        have := (allLt_iff l nk).mp o1 p hp
        omega
      by_cases hrr : r.is_real_node = true
      · simp only [insertGo, if_neg hk, if_pos hrr, inorder_fixNode, inorder]
        rw [ihr hbr, listIns_append_ge k v _ (nk, nv) _ hA hk]
      · have hre : r = .ext := by
          cases r with
          | ext => rfl
          | node a b c d e => simp [Node.is_real_node] at hrr
        subst hre
        simp only [insertGo, if_neg hk, if_neg hrr, inorder_fixNode, inorder]
        rw [listIns_append_ge k v _ (nk, nv) _ hA hk]
        rfl

lemma attachGo_inorder (t : Node) (k v : Int) (hb : bstOk t = true) :
    inorder (attachGo t k v) = listIns k v (inorder t) := by
  induction t with
  | ext => simp [attachGo, inorder, listIns]
  | node nk nv nh l r ihl ihr =>
    obtain ⟨o1, o2, hbl, hbr⟩ := (bstOk_node_iff _ _ _ _ _).mp hb
    by_cases hk : k < nk
    · by_cases hlr : l.is_real_node = true
      · simp only [attachGo, if_pos hk, if_pos hlr, inorder]
        rw [ihl hbl, listIns_append_lt k v _ (nk, nv) _ hk]
      · have hle : l = .ext := by
          cases l with
          | ext => rfl
          | node a b c d e => simp [Node.is_real_node] at hlr
        subst hle
        simp only [attachGo, if_pos hk, if_neg hlr, inorder, List.nil_append]
        rw [listIns, if_pos hk]
        rfl
    · have hA : ∀ p ∈ inorder l, ¬k < p.1 := by
        intro p hp
        have := (allLt_iff l nk).mp o1 p hp
        omega
      by_cases hrr : r.is_real_node = true
      · simp only [attachGo, if_neg hk, if_pos hrr, inorder]
        rw [ihr hbr, listIns_append_ge k v _ (nk, nv) _ hA hk]
      · have hre : r = .ext := by
          cases r with
          | ext => rfl
          | node a b c d e => simp [Node.is_real_node] at hrr
        subst hre
        simp only [attachGo, if_neg hk, if_neg hrr, inorder]
        rw [listIns_append_ge k v _ (nk, nv) _ hA hk]
        rfl

lemma bstOk_insertGo (t : Node) (k v : Int) (hb : bstOk t = true)
    (hk : k ∉ (inorder t).map Prod.fst) : bstOk (insertGo t k v).1 = true := by
  rw [bstOk_iff_pairwise, insertGo_inorder t k v hb]
  exact listIns_pairwise k v _ ((bstOk_iff_pairwise t).mp hb) hk

lemma leaf_heightsOk (k v : Int) : heightsOk (.node k v 0 .ext .ext) = true := by
  rw [heightsOk_node_iff]
  refine ⟨?_, rfl, rfl⟩
  simp only [hF_ext]
  omega

lemma leaf_balancedOk (k v : Int) : balancedOk (.node k v 0 .ext .ext) = true := by
  rw [balancedOk_node_iff]
  refine ⟨?_, ?_, rfl, rfl⟩ <;> simp [hF_ext]

lemma leaf_realHeight (k v : Int) : realHeight (.node k v 0 .ext .ext) = 0 := by
  simp only [realHeight_node, realHeight_ext]
  omega

lemma leaf_bstOk (k v : Int) : bstOk (.node k v 0 .ext .ext) = true := by
  rw [bstOk_node_iff]
  exact ⟨rfl, rfl, rfl, rfl⟩

lemma insertGo_avl (t : Node) (k v : Int) (h1 : heightsOk t = true)
    (h2 : balancedOk t = true) :
    heightsOk (insertGo t k v).1 = true ∧ balancedOk (insertGo t k v).1 = true ∧
      (realHeight (insertGo t k v).1 = realHeight t ∨
        realHeight (insertGo t k v).1 = realHeight t + 1) := by
  induction t with
  | ext =>
    refine ⟨leaf_heightsOk k v, leaf_balancedOk k v, Or.inr ?_⟩
    rw [show (insertGo .ext k v).1 = .node k v 0 .ext .ext from rfl, leaf_realHeight]
    rfl
  | node nk nv nh l r ihl ihr =>
    obtain ⟨e1, hl1, hr1⟩ := (heightsOk_node_iff _ _ _ _ _).mp h1
    obtain ⟨b1, b2, hl2, hr2⟩ := (balancedOk_node_iff _ _ _ _ _).mp h2
    have efl := hF_eq_realHeight l hl1
    have efr := hF_eq_realHeight r hr1
    have hbl := neg_one_le_realHeight l
    have hbr := neg_one_le_realHeight r
    by_cases hk : k < nk
    · by_cases hlr : l.is_real_node = true
      · obtain ⟨i1, i2, i3⟩ := ihl hl1 hl2
        simp only [insertGo, if_pos hk, if_pos hlr]
        obtain ⟨s1, s2, s3⟩ := fixNode_spec nk nv nh (insertGo l k v).1 r i1 i2 hr1 hr2
          (by omega) (by omega)
        exact ⟨s1, s2, by simp only [realHeight_node]; omega⟩
      · have hle : l = .ext := by
          cases l with
          | ext => rfl
          | node a b c d e => simp [Node.is_real_node] at hlr
        subst hle
        simp only [insertGo, if_pos hk, if_neg hlr]
        have hleaf1 := leaf_heightsOk k v
        have hleaf2 := leaf_balancedOk k v
        have hrh := leaf_realHeight k v
        obtain ⟨s1, s2, s3⟩ := fixNode_spec nk nv nh (.node k v 0 .ext .ext) r hleaf1 hleaf2
          hr1 hr2 (by simp only [realHeight_ext] at *; omega)
          (by simp only [realHeight_ext] at *; omega)
        refine ⟨s1, s2, ?_⟩
        rw [hrh] at s3
        simp only [realHeight_node, realHeight_ext] at *
        omega
    · by_cases hrr : r.is_real_node = true
      · obtain ⟨i1, i2, i3⟩ := ihr hr1 hr2
        simp only [insertGo, if_neg hk, if_pos hrr]
        obtain ⟨s1, s2, s3⟩ := fixNode_spec nk nv nh l (insertGo r k v).1 hl1 hl2 i1 i2
          (by omega) (by omega)
        exact ⟨s1, s2, by simp only [realHeight_node]; omega⟩
      · have hre : r = .ext := by
          cases r with
          | ext => rfl
          | node a b c d e => simp [Node.is_real_node] at hrr
        subst hre
        simp only [insertGo, if_neg hk, if_neg hrr]
        have hleaf1 := leaf_heightsOk k v
        have hleaf2 := leaf_balancedOk k v
        have hrh := leaf_realHeight k v
        obtain ⟨s1, s2, s3⟩ := fixNode_spec nk nv nh l (.node k v 0 .ext .ext) hl1 hl2
          hleaf1 hleaf2 (by simp only [realHeight_ext] at *; omega)
          (by simp only [realHeight_ext] at *; omega)
        refine ⟨s1, s2, ?_⟩
        rw [hrh] at s3
        simp only [realHeight_node, realHeight_ext] at *
        omega

lemma not_real_eq_ext (t : Node) (h : ¬t.is_real_node = true) : t = .ext := by
  cases t with
  | ext => rfl
  | node a b c d e => simp [Node.is_real_node] at h

lemma removeMin_inorder (t : Node) (ht : t.is_real_node = true) :
    inorder t = (removeMin t).1 :: inorder (removeMin t).2 := by
  induction t with
  | ext => simp [Node.is_real_node] at ht
  | node k v h l r ihl ihr =>
    by_cases hl : l.is_real_node = true
    · simp only [removeMin, if_pos hl, inorder_fixNode, inorder]
      rw [ihl hl]
      rfl
    · have := not_real_eq_ext l hl
      subst this
      have hred : removeMin (Node.node k v h .ext r) = ((k, v), r) := rfl
      rw [hred]
      simp [inorder]

lemma removeMin_leftmost (t : Node) (ht : t.is_real_node = true) :
    leftmostPair t = some (removeMin t).1 := by
  induction t with
  | ext => simp [Node.is_real_node] at ht
  | node k v h l r ihl ihr =>
    by_cases hl : l.is_real_node = true
    · simp only [leftmostPair, if_pos hl, removeMin]
      exact ihl hl
    · have hred : removeMin (Node.node k v h l r) =
          ((k, v), r) := by
        simp only [removeMin, if_neg hl]
      rw [hred]
      simp only [leftmostPair, if_neg hl]

lemma removeMin_avl (t : Node) (h1 : heightsOk t = true) (h2 : balancedOk t = true) :
    heightsOk (removeMin t).2 = true ∧ balancedOk (removeMin t).2 = true ∧
      (realHeight (removeMin t).2 = realHeight t ∨
        realHeight (removeMin t).2 = realHeight t - 1) := by
  induction t with
  | ext => exact ⟨rfl, rfl, Or.inl rfl⟩
  | node k v h l r ihl ihr =>
    obtain ⟨e1, hl1, hr1⟩ := (heightsOk_node_iff _ _ _ _ _).mp h1
    obtain ⟨b1, b2, hl2, hr2⟩ := (balancedOk_node_iff _ _ _ _ _).mp h2
    have efl := hF_eq_realHeight l hl1
    have efr := hF_eq_realHeight r hr1
    have hbl := neg_one_le_realHeight l
    have hbr := neg_one_le_realHeight r
    by_cases hl : l.is_real_node = true
    · obtain ⟨i1, i2, i3⟩ := ihl hl1 hl2
      simp only [removeMin, if_pos hl]
      obtain ⟨s1, s2, s3⟩ := fixNode_spec k v h (removeMin l).2 r i1 i2 hr1 hr2
        (by omega) (by omega)
      refine ⟨s1, s2, ?_⟩
      simp only [realHeight_node]
      have hbml := neg_one_le_realHeight (removeMin l).2
      omega
    · have := not_real_eq_ext l hl
      subst this
      have hred : removeMin (Node.node k v h .ext r) = ((k, v), r) := rfl
      rw [hred]
      refine ⟨hr1, hr2, ?_⟩
      simp only [realHeight_node, realHeight_ext, hF_ext, hF_node] at *
      omega

lemma delGo_avl (t : Node) (key : Int) (h1 : heightsOk t = true)
    (h2 : balancedOk t = true) :
    heightsOk (delGo t key) = true ∧ balancedOk (delGo t key) = true ∧
      (realHeight (delGo t key) = realHeight t ∨
        realHeight (delGo t key) = realHeight t - 1) := by
  induction t with
  | ext => exact ⟨rfl, rfl, Or.inl rfl⟩
  | node nk nv nh l r ihl ihr =>
    obtain ⟨e1, hl1, hr1⟩ := (heightsOk_node_iff _ _ _ _ _).mp h1
    obtain ⟨b1, b2, hl2, hr2⟩ := (balancedOk_node_iff _ _ _ _ _).mp h2
    have efl := hF_eq_realHeight l hl1
    have efr := hF_eq_realHeight r hr1
    have hbl := neg_one_le_realHeight l
    have hbr := neg_one_le_realHeight r
    by_cases hk1 : key < nk
    · obtain ⟨i1, i2, i3⟩ := ihl hl1 hl2
      simp only [delGo, if_pos hk1]
      obtain ⟨s1, s2, s3⟩ := fixNode_spec nk nv nh (delGo l key) r i1 i2 hr1 hr2
        (by omega) (by omega)
      refine ⟨s1, s2, ?_⟩
      simp only [realHeight_node]
      have := neg_one_le_realHeight (delGo l key)
      omega
    · by_cases hk2 : nk < key
      · obtain ⟨i1, i2, i3⟩ := ihr hr1 hr2
        simp only [delGo, if_neg hk1, if_pos hk2]
        obtain ⟨s1, s2, s3⟩ := fixNode_spec nk nv nh l (delGo r key) hl1 hl2 i1 i2
          (by omega) (by omega)
        refine ⟨s1, s2, ?_⟩
        simp only [realHeight_node]
        have := neg_one_le_realHeight (delGo r key)
        omega
      · by_cases hone : (!l.is_real_node || !r.is_real_node) = true
        · simp only [delGo, if_neg hk1, if_neg hk2, if_pos hone]
          by_cases hlreal : l.is_real_node = true
          · have hrext : r = .ext := by
              rcases Bool.or_eq_true _ _ |>.mp hone with hh | hh
              · rw [Bool.not_eq_true'] at hh; rw [hlreal] at hh; cases hh
              · rw [Bool.not_eq_true'] at hh; exact not_real_eq_ext r (by simp [hh])
            subst hrext
            rw [if_pos hlreal]
            refine ⟨hl1, hl2, ?_⟩
            simp only [realHeight_node, realHeight_ext, hF_ext, hF_node] at *
            omega
          · have hlext : l = .ext := not_real_eq_ext l hlreal
            subst hlext
            rw [if_neg hlreal]
            refine ⟨hr1, hr2, ?_⟩
            simp only [realHeight_node, realHeight_ext, hF_ext, hF_node] at *
            omega
        · simp only [delGo, if_neg hk1, if_neg hk2, if_neg hone]
          obtain ⟨m1, m2, m3⟩ := removeMin_avl r hr1 hr2
          obtain ⟨s1, s2, s3⟩ := fixNode_spec (removeMin r).1.1 (removeMin r).1.2 nh l
            (removeMin r).2 hl1 hl2 m1 m2 (by omega) (by omega)
          refine ⟨s1, s2, ?_⟩
          simp only [realHeight_node]
          have := neg_one_le_realHeight (removeMin r).2
          omega

lemma delGo_inorder (t : Node) (key : Int) (hb : bstOk t = true)
    (hk : key ∈ (inorder t).map Prod.fst) :
    inorder (delGo t key) = listDel key (inorder t) := by
  induction t with
  | ext => simp [inorder] at hk
  | node nk nv nh l r ihl ihr =>
    obtain ⟨o1, o2, hbl, hbr⟩ := (bstOk_node_iff _ _ _ _ _).mp hb
    have hgt := (allGt_iff r nk).mp o2
    have hlt := (allLt_iff l nk).mp o1
    simp only [inorder, List.map_append, List.map_cons, List.mem_append,
      List.mem_cons] at hk
    by_cases hk1 : key < nk
    · have hmem : key ∈ (inorder l).map Prod.fst := by
        rcases hk with hk | hk | hk
        · exact hk
        · omega
        · exfalso
          obtain ⟨p, hp, hfp⟩ := List.mem_map.mp hk
          have := hgt p hp
          omega
      simp only [delGo, if_pos hk1, inorder_fixNode, inorder]
      rw [ihl hbl hmem, listDel_append_mem key _ _ hmem]
    · by_cases hk2 : nk < key
      · have hmem : key ∈ (inorder r).map Prod.fst := by
          rcases hk with hk | hk | hk
          · exfalso
            obtain ⟨p, hp, hfp⟩ := List.mem_map.mp hk
            have := hlt p hp
            omega
          · omega
          · exact hk
        have hnotl : key ∉ (inorder l).map Prod.fst := by
          intro hc
          obtain ⟨p, hp, hfp⟩ := List.mem_map.mp hc
          have := hlt p hp
          omega
        simp only [delGo, if_neg hk1, if_pos hk2, inorder_fixNode, inorder]
        rw [ihr hbr hmem, listDel_append_not_mem key _ _ hnotl, listDel,
          if_neg (by omega)]
      · have hkey : key = nk := by omega
        have hnotl : key ∉ (inorder l).map Prod.fst := by
          intro hc
          obtain ⟨p, hp, hfp⟩ := List.mem_map.mp hc
          have := hlt p hp
          omega
        by_cases hone : (!l.is_real_node || !r.is_real_node) = true
        · simp only [delGo, if_neg hk1, if_neg hk2, if_pos hone]
          by_cases hlreal : l.is_real_node = true
          · have hrext : r = .ext := by
              rcases Bool.or_eq_true _ _ |>.mp hone with hh | hh
              · rw [Bool.not_eq_true'] at hh
                rw [hlreal] at hh
                cases hh
              · rw [Bool.not_eq_true'] at hh
                exact not_real_eq_ext r (by simp [hh])
            subst hrext
            rw [if_pos hlreal]
            rw [show inorder (Node.node nk nv nh l .ext) = inorder l ++ [(nk, nv)] from rfl]
            rw [listDel_append_not_mem key _ _ hnotl, listDel, if_pos hkey.symm]
            simp
          · have hlext : l = .ext := not_real_eq_ext l hlreal
            subst hlext
            rw [if_neg hlreal]
            rw [show inorder (Node.node nk nv nh .ext r) = (nk, nv) :: inorder r from rfl]
            rw [listDel, if_pos hkey.symm]
        · simp only [delGo, if_neg hk1, if_neg hk2, if_neg hone]
          have hrreal : r.is_real_node = true := by
            by_contra hc
            have hre : r = .ext := not_real_eq_ext r hc
            rw [hre] at hone
            simp [Node.is_real_node] at hone
          rw [inorder_fixNode]
          rw [show inorder (Node.node (removeMin r).1.1 (removeMin r).1.2 nh l
            (removeMin r).2) = inorder l ++ (removeMin r).1 :: inorder (removeMin r).2
            from rfl]
          rw [← removeMin_inorder r hrreal]
          rw [show inorder (Node.node nk nv nh l r) = inorder l ++ (nk, nv) :: inorder r
            from rfl]
          rw [listDel_append_not_mem key _ _ hnotl, listDel, if_pos hkey.symm]

end AVL3
namespace AVL3

lemma rightmostPair_eq_getLast (t : Node) : rightmostPair t = (inorder t).getLast? := by
  induction t with
  | ext => rfl
  | node k v h l r ihl ihr =>
    by_cases hr : r.is_real_node = true
    · have hne : inorder r ≠ [] := by
        rw [Ne, inorder_eq_nil_iff]
        intro hre
        rw [hre] at hr
        simp [Node.is_real_node] at hr
      cases hgl : (inorder r).getLast? with
      | none => exact absurd (List.getLast?_eq_none_iff.mp hgl) hne
      | some x =>
        simp only [rightmostPair, if_pos hr, inorder]
        rw [ihr, hgl, List.getLast?_append, List.getLast?_cons, hgl]
        rfl
    · have hre := not_real_eq_ext r hr
      subst hre
      simp only [rightmostPair, if_neg hr, inorder]
      exact (List.getLast?_concat _).symm

lemma rightmostPair_eq_none_iff (t : Node) : rightmostPair t = none ↔ t = .ext := by
  rw [rightmostPair_eq_getLast, List.getLast?_eq_none_iff, inorder_eq_nil_iff]

lemma sorted_getLast_max (ps : List (Int × Int)) (x : Int × Int)
    (h : ps.Pairwise (fun p q => p.1 < q.1)) (hx : ps.getLast? = some x) :
    ∀ p ∈ ps, p.1 ≤ x.1 := by
  induction ps with
  | nil => simp at hx
  | cons p rest ih =>
    intro q hq
    rw [List.pairwise_cons] at h
    cases rest with
    | nil =>
      simp only [List.getLast?_singleton] at hx
      cases hx
      rcases List.mem_cons.mp hq with hq | hq
      · simp [hq]
      · simp at hq
    | cons a b =>
      rw [List.getLast?_cons_cons] at hx
      rcases List.mem_cons.mp hq with hq | hq
      · have hxm : x ∈ a :: b := List.mem_of_getLast?_eq_some hx
        have := h.1 x hxm
        simp only [hq]
        omega
      · exact ih h.2 hx q hq

lemma leftmostPair_isSome (t : Node) (ht : t.is_real_node = true) :
    ∃ p, leftmostPair t = some p := by
  induction t with
  | ext => simp [Node.is_real_node] at ht
  | node k v h l r ihl ihr =>
    by_cases hl : l.is_real_node = true
    · obtain ⟨p, hp⟩ := ihl hl
      exact ⟨p, by simp only [leftmostPair, if_pos hl, hp]⟩
    · exact ⟨(k, v), by simp only [leftmostPair, if_neg hl]⟩

lemma keys_mem_root_real (t : AVLTree) (k : Int) (hk : k ∈ keysOf t) :
    t.root.is_real_node = true := by
  by_contra hc
  have := not_real_eq_ext _ hc
  rw [keysOf, this] at hk
  simp [inorder] at hk

lemma insert_Inv (t : AVLTree) (k v : Int) (hI : Inv t) (hk : k ∉ keysOf t) :
    Inv (insert t k v).1 := by
  obtain ⟨i1, i2, i3, i4, i5⟩ := hI
  by_cases hroot : t.root.is_real_node = true
  · simp only [insert, if_pos hroot]
    have hio := insertGo_inorder t.root k v i1
    have hbst := bstOk_insertGo t.root k v i1 hk
    obtain ⟨g1, g2, _⟩ := insertGo_avl t.root k v i2 i3
    refine ⟨hbst, g1, g2, ?_, ?_⟩
    · simp only [hio, listIns_length]
      push_cast
      omega
    · cases hm : t.maxP with
      | none =>
        rw [hm] at i5
        have := (rightmostPair_eq_none_iff t.root).mp i5.symm
        rw [this] at hroot
        simp [Node.is_real_node] at hroot
      | some m =>
        have hms : (inorder t.root).getLast? = some m := by
          rw [← rightmostPair_eq_getLast, ← i5, hm]
        have hsorted := (bstOk_iff_pairwise t.root).mp i1
        by_cases hgt : k > m.1
        · simp only [if_pos hgt]
          rw [rightmostPair_eq_getLast, hio]
          have hall : ∀ p ∈ inorder t.root, p.1 < k := by
            intro p hp
            have := sorted_getLast_max _ _ hsorted hms p hp
            omega
          rw [listIns_of_all_lt k v _ hall, List.getLast?_concat]
        · simp only [if_neg hgt]
          have hne : k ≠ m.1 := by
            intro he
            apply hk
            rw [keysOf, he]
            exact List.mem_map.mpr ⟨m, List.mem_of_getLast?_eq_some hms, rfl⟩
          rw [rightmostPair_eq_getLast, hio,
            listIns_getLast_of_lt k v _ m hms (by omega)]
  · have hext : t.root = .ext := not_real_eq_ext _ hroot
    simp only [insert, if_neg hroot]
    refine ⟨leaf_bstOk k v, leaf_heightsOk k v, leaf_balancedOk k v, ?_, ?_⟩
    · rfl
    · simp only [rightmostPair]
      rw [if_neg (by simp [Node.is_real_node])]

lemma delete_Inv (t : AVLTree) (k : Int) (hI : Inv t) (hk : k ∈ keysOf t)
    (hnc : ¬(hasTwoAt t.root k = true ∧
      (succPairAt t.root k).map Prod.fst = maxKeyOf t)) :
    Inv (deleteT t k) := by
  obtain ⟨i1, i2, i3, i4, i5⟩ := hI
  have hroot := keys_mem_root_real t k hk
  obtain ⟨d1, d2, _⟩ := delGo_avl t.root k i2 i3
  have hdo := delGo_inorder t.root k i1 hk
  have hbst : bstOk (delGo t.root k) = true := by
    rw [bstOk_iff_pairwise, hdo]
    exact List.Pairwise.sublist (listDel_sublist k _) ((bstOk_iff_pairwise _).mp i1)
  have hlen := listDel_length k (inorder t.root) hk
  have hR : (deleteT t k).root = delGo t.root k := rfl
  have hS : (deleteT t k).size = t.size - 1 := rfl
  have hM : (deleteT t k).maxP = deleteMaxP t k := rfl
  cases hm : t.maxP with
  | none =>
    rw [hm] at i5
    have := (rightmostPair_eq_none_iff t.root).mp i5.symm
    rw [this] at hroot
    simp [Node.is_real_node] at hroot
  | some m =>
    have hms : (inorder t.root).getLast? = some m := by
      rw [← rightmostPair_eq_getLast, ← i5, hm]
    refine ⟨by rw [hR]; exact hbst, by rw [hR]; exact d1, by rw [hR]; exact d2, ?_, ?_⟩
    · rw [hR, hS, hdo]
      omega
    · rw [hR, hM, deleteMaxP]
      by_cases h2 : hasTwoAt t.root k = true
      · rw [if_pos h2]
        obtain ⟨s, hs⟩ : ∃ s, succPairAt t.root k = some s := by
          rw [succPairAt]
          cases hna : nodeAt t.root k with
          | ext => rw [hasTwoAt, hna] at h2; cases h2
          | node a b c d e =>
            rw [hasTwoAt, hna] at h2
            have her : e.is_real_node = true :=
              (Bool.and_eq_true _ _ |>.mp h2).2
            obtain ⟨p, hp⟩ := leftmostPair_isSome e her
            exact ⟨p, hp⟩
        simp only [hs, hm]
        by_cases hsm : s.1 = m.1
        · exact absurd ⟨h2, by rw [hs, maxKeyOf, hm]; simpa using hsm⟩ hnc
        · rw [if_neg hsm]
          by_cases hkm : k = m.1
          · rw [if_pos hkm]
          · rw [if_neg hkm]
            rw [rightmostPair_eq_getLast, hdo, listDel_getLast k _ m hms hkm]
      · rw [if_neg h2]
        simp only [hm]
        by_cases hkm : k = m.1
        · rw [if_pos hkm]
        · rw [if_neg hkm]
          rw [rightmostPair_eq_getLast, hdo, listDel_getLast k _ m hms hkm]

end AVL3
namespace AVL3

lemma insert_inorder (t : AVLTree) (k v : Int) (hb : bstOk t.root = true) :
    inorder (insert t k v).1.root = listIns k v (inorder t.root) := by
  by_cases hroot : t.root.is_real_node = true
  · simp only [insert, if_pos hroot]
    exact insertGo_inorder _ _ _ hb
  · have he := not_real_eq_ext _ hroot
    simp only [insert, if_neg hroot, he]
    rfl

lemma insFold_build (ps qs : List (Int × Int)) (t : AVLTree) (hI : Inv t)
    (hq : inorder t.root = qs)
    (hsorted : (qs ++ ps).Pairwise (fun p q => p.1 < q.1)) :
    Inv (insFold t ps) ∧ inorder (insFold t ps).root = qs ++ ps := by
  induction ps generalizing t qs with
  | nil =>
    rw [insFold]
    simpa using ⟨hI, hq⟩
  | cons p rest ih =>
    have hqlt : ∀ a ∈ qs, a.1 < p.1 := by
      intro a ha
      exact (List.pairwise_append.mp hsorted).2.2 a ha p (by simp)
    have hfresh : p.1 ∉ keysOf t := by
      rw [keysOf, hq]
      intro hc
      obtain ⟨q, hqmem, hfq⟩ := List.mem_map.mp hc
      have := hqlt q hqmem
      omega
    have hI' := insert_Inv t p.1 p.2 hI hfresh
    have hio : inorder (insert t p.1 p.2).1.root = qs ++ [p] := by
      rw [insert_inorder t p.1 p.2 hI.1, hq, listIns_of_all_lt _ _ _ hqlt]
    have hsorted' : ((qs ++ [p]) ++ rest).Pairwise (fun p q => p.1 < q.1) := by
      rw [List.append_assoc]
      exact hsorted
    have := ih (qs ++ [p]) (insert t p.1 p.2).1 hI' hio hsorted'
    rw [insFold] at this ⊢
    simp only [List.foldl_cons] at *
    refine ⟨this.1, ?_⟩
    rw [this.2, List.append_assoc]
    rfl

lemma leftmostPair_mem (t : Node) (p : Int × Int) (h : leftmostPair t = some p) :
    p ∈ inorder t := by
  induction t with
  | ext => simp [leftmostPair] at h
  | node k v hh l r ihl ihr =>
    by_cases hl : l.is_real_node = true
    · rw [leftmostPair, if_pos hl] at h
      simp only [inorder, List.mem_append, List.mem_cons]
      exact Or.inl (ihl h)
    · rw [leftmostPair, if_neg hl] at h
      cases h
      simp [inorder]

lemma leftmost_min (t : Node) (hb : bstOk t = true) (p : Int × Int)
    (h : leftmostPair t = some p) : ∀ q ∈ inorder t, p.1 ≤ q.1 := by
  induction t with
  | ext => simp [leftmostPair] at h
  | node k v hh l r ihl ihr =>
    obtain ⟨o1, o2, hbl, hbr⟩ := (bstOk_node_iff _ _ _ _ _).mp hb
    have hlt := (allLt_iff l k).mp o1
    have hgt := (allGt_iff r k).mp o2
    intro q hq
    simp only [inorder, List.mem_append, List.mem_cons] at hq
    by_cases hl : l.is_real_node = true
    · rw [leftmostPair, if_pos hl] at h
      have hpl := leftmostPair_mem l p h
      have hpk : p.1 < k := hlt p hpl
      rcases hq with hq | hq | hq
      · exact ihl hbl h q hq
      · simp only [hq]
        omega
      · have := hgt q hq
        omega
    · rw [leftmostPair, if_neg hl] at h
      cases h
      have hle := not_real_eq_ext l hl
      subst hle
      rcases hq with hq | hq | hq
      · simp [inorder] at hq
      · simp [hq]
      · have := hgt q hq
        omega

lemma nodeAt_sub (t : Node) (key : Int) :
    ∀ p ∈ inorder (nodeAt t key), p ∈ inorder t := by
  induction t with
  | ext => simp [nodeAt]
  | node nk nv nh l r ihl ihr =>
    intro p hp
    simp only [inorder, List.mem_append, List.mem_cons]
    by_cases h1 : key < nk
    · rw [nodeAt, if_pos h1] at hp
      exact Or.inl (ihl p hp)
    · by_cases h2 : nk < key
      · rw [nodeAt, if_neg h1, if_pos h2] at hp
        exact Or.inr (Or.inr (ihr p hp))
      · rw [nodeAt, if_neg h1, if_neg h2] at hp
        simp only [inorder, List.mem_append, List.mem_cons] at hp
        exact hp

lemma succ_least (t : Node) (key : Int) (hb : bstOk t = true)
    (h2 : hasTwoAt t key = true) (s : Int × Int) (hs : succPairAt t key = some s) :
    key < s.1 ∧ ∀ q ∈ inorder t, key < q.1 → s.1 ≤ q.1 := by
  induction t with
  | ext => simp [hasTwoAt, nodeAt] at h2
  | node nk nv nh l r ihl ihr =>
    obtain ⟨o1, o2, hbl, hbr⟩ := (bstOk_node_iff _ _ _ _ _).mp hb
    have hlt := (allLt_iff l nk).mp o1
    have hgt := (allGt_iff r nk).mp o2
    by_cases hk1 : key < nk
    · have e2 : hasTwoAt l key = true := by
        rw [hasTwoAt] at h2 ⊢
        rw [nodeAt, if_pos hk1] at h2
        exact h2
      have es : succPairAt l key = some s := by
        rw [succPairAt] at hs ⊢
        rw [nodeAt, if_pos hk1] at hs
        exact hs
      obtain ⟨ih1, ih2⟩ := ihl hbl e2 es
      have hsmem : s ∈ inorder l := by
        rw [succPairAt] at es
        cases hna : nodeAt l key with
        | ext => rw [hna] at es; simp at es
        | node a b c d e =>
          rw [hna] at es
          have : s ∈ inorder (nodeAt l key) := by
            rw [hna]
            simp only [inorder, List.mem_append, List.mem_cons]
            exact Or.inr (Or.inr (leftmostPair_mem e s es))
          exact nodeAt_sub l key s this
      refine ⟨ih1, ?_⟩
      intro q hq hkq
      simp only [inorder, List.mem_append, List.mem_cons] at hq
      rcases hq with hq | hq | hq
      · exact ih2 q hq hkq
      · have := hlt s hsmem
        simp only [hq]
        omega
      · have h1 := hlt s hsmem
        have h2 := hgt q hq
        omega
    · by_cases hk2 : nk < key
      · have e2 : hasTwoAt r key = true := by
          rw [hasTwoAt] at h2 ⊢
          rw [nodeAt, if_neg hk1, if_pos hk2] at h2
          exact h2
        have es : succPairAt r key = some s := by
          rw [succPairAt] at hs ⊢
          rw [nodeAt, if_neg hk1, if_pos hk2] at hs
          exact hs
        obtain ⟨ih1, ih2⟩ := ihr hbr e2 es
        refine ⟨ih1, ?_⟩
        intro q hq hkq
        simp only [inorder, List.mem_append, List.mem_cons] at hq
        rcases hq with hq | hq | hq
        · have := hlt q hq
          omega
        · simp only [hq] at hkq
          omega
        · exact ih2 q hq hkq
      · rw [hasTwoAt, nodeAt, if_neg hk1, if_neg hk2] at h2
        rw [succPairAt, nodeAt, if_neg hk1, if_neg hk2] at hs
        have hkey : key = nk := by omega
        have hsr : s ∈ inorder r := leftmostPair_mem r s hs
        have hsk : key < s.1 := by
          have := hgt s hsr
          omega
        refine ⟨hsk, ?_⟩
        intro q hq hkq
        simp only [inorder, List.mem_append, List.mem_cons] at hq
        rcases hq with hq | hq | hq
        · have := hlt q hq
          omega
        · simp only [hq] at hkq
          omega
        · exact leftmost_min r hbr s hs q hq

lemma joinRight_inorder (t1 : Node) (h2 k v : Int) (t2 : Node) :
    inorder (joinRight t1 h2 k v t2) = inorder t1 ++ (k, v) :: inorder t2 := by
  induction t1 with
  | ext => simp [joinRight, inorder_fixNode, inorder]
  | node ck cv ch cl cr ihl ihr =>
    rw [joinRight]
    split_ifs with hc1 hc2
    · simp [inorder_fixNode, inorder, List.append_assoc]
    · simp [inorder_fixNode, inorder, ihr, List.append_assoc]
    · simp [inorder_fixNode, inorder, List.append_assoc]

lemma joinLeft_inorder (t2 : Node) (h1 k v : Int) (t1 : Node) :
    inorder (joinLeft t2 h1 k v t1) = inorder t1 ++ (k, v) :: inorder t2 := by
  induction t2 with
  | ext => simp [joinLeft, inorder_fixNode, inorder]
  | node ck cv ch cl cr ihl ihr =>
    rw [joinLeft]
    split_ifs with hc1 hc2
    · simp [inorder_fixNode, inorder, List.append_assoc]
    · simp [inorder_fixNode, inorder, ihl, List.append_assoc]
    · simp [inorder_fixNode, inorder, List.append_assoc]

lemma Inv_emptyT : Inv emptyT := ⟨rfl, rfl, rfl, rfl, rfl⟩

lemma succPairAt_isSome (t : Node) (key : Int) (h2 : hasTwoAt t key = true) :
    ∃ s, succPairAt t key = some s := by
  rw [succPairAt]
  cases hna : nodeAt t key with
  | ext => rw [hasTwoAt, hna] at h2; cases h2
  | node a b c d e =>
    rw [hasTwoAt, hna] at h2
    exact leftmostPair_isSome e (Bool.and_eq_true _ _ |>.mp h2).2

lemma listDel_not_mem (k : Int) (ps : List (Int × Int))
    (h : ps.Pairwise (fun p q => p.1 < q.1)) :
    k ∉ (listDel k ps).map Prod.fst := by
  induction ps with
  | nil => simp [listDel]
  | cons p rest ih =>
    rw [List.pairwise_cons] at h
    by_cases hp : p.1 = k
    · rw [listDel, if_pos hp]
      intro hc
      obtain ⟨q, hq, hfq⟩ := List.mem_map.mp hc
      have := h.1 q hq
      omega
    · rw [listDel, if_neg hp]
      intro hc
      rcases List.mem_map.mp hc with ⟨q, hq, hfq⟩
      rcases List.mem_cons.mp hq with hq | hq
      · rw [hq] at hfq
        exact hp hfq
      · exact ih h.2 (List.mem_map.mpr ⟨q, hq, hfq⟩)

lemma dropWhile_sorted_not_lt (pivot : Int) (ps : List (Int × Int))
    (h : ps.Pairwise (fun p q => p.1 < q.1)) :
    ∀ p ∈ ps.dropWhile (fun p => p.1 < pivot), ¬p.1 < pivot := by
  induction ps with
  | nil => simp
  | cons q rest ih =>
    rw [List.pairwise_cons] at h
    by_cases hq : q.1 < pivot
    · rw [List.dropWhile_cons_of_pos (by simpa using hq)]
      exact ih h.2
    · rw [List.dropWhile_cons_of_neg (by simpa using hq)]
      intro p hp
      rcases List.mem_cons.mp hp with hp | hp
      · simpa [hp] using hq
      · have := h.1 p hp
        omega

/-- Summary of what one `split` call guarantees (the content part of the
split contract): every key of the left output is strictly below the split
key, every key of the right output strictly above, the split key lands in
neither, and the two sizes plus one add up to the size before the call. -/
theorem split_spec (t : AVLTree) (k : Int) (hI : Inv t) (hk : k ∈ keysOf t) :
    (∀ q ∈ keysOf (split t k).1, q < k) ∧
    (∀ q ∈ keysOf (split t k).2, k < q) ∧
    Inv (split t k).1 ∧ Inv (split t k).2 ∧
    (split t k).1.size + (split t k).2.size + 1 = t.size := by
  obtain ⟨i1, i2, i3, i4, i5⟩ := hI
  have hdo := delGo_inorder t.root k i1 hk
  have hsorted := (bstOk_iff_pairwise t.root).mp i1
  have harr : inorder (deleteT t k).root = listDel k (inorder t.root) := hdo
  have harr_sorted : (inorder (deleteT t k).root).Pairwise (fun p q => p.1 < q.1) := by
    rw [harr]
    exact List.Pairwise.sublist (listDel_sublist k _) hsorted
  have harr_nok : k ∉ (inorder (deleteT t k).root).map Prod.fst := by
    rw [harr]
    exact listDel_not_mem k _ hsorted
  have hlen := listDel_length k (inorder t.root) hk
  set pivot := (if hasTwoAt t.root k = true then
    ((succPairAt t.root k).getD (0, 0)).1 else k) with hpiv
  have hs1 : (split t k).1 =
      insFold emptyT ((inorder (deleteT t k).root).takeWhile (fun p => p.1 < pivot)) := rfl
  have hs2 : (split t k).2 =
      insFold emptyT ((inorder (deleteT t k).root).dropWhile (fun p => p.1 < pivot)) := rfl
  have hTW : ((inorder (deleteT t k).root).takeWhile
      (fun p => p.1 < pivot)).Pairwise (fun p q => p.1 < q.1) :=
    List.Pairwise.sublist (List.takeWhile_sublist _) harr_sorted
  have hDW : ((inorder (deleteT t k).root).dropWhile
      (fun p => p.1 < pivot)).Pairwise (fun p q => p.1 < q.1) :=
    List.Pairwise.sublist (List.dropWhile_sublist _) harr_sorted
  obtain ⟨hIL, hioL⟩ := insFold_build _ [] emptyT Inv_emptyT rfl (by simpa using hTW)
  obtain ⟨hIR, hioR⟩ := insFold_build _ [] emptyT Inv_emptyT rfl (by simpa using hDW)
  rw [List.nil_append] at hioL hioR
  have hkey_bound : ∀ q ∈ (inorder (deleteT t k).root).map Prod.fst,
      (q < pivot → q < k) ∧ (¬q < pivot → k < q) := by
    intro q hq
    obtain ⟨p, hp, hfp⟩ := List.mem_map.mp hq
    have hpmem : p ∈ inorder t.root := by
      rw [harr] at hp
      exact (listDel_sublist k _).subset hp
    have hqnek : q ≠ k := by
      intro he
      rw [he] at hq
      exact harr_nok hq
    by_cases h2 : hasTwoAt t.root k = true
    · obtain ⟨s, hs⟩ := succPairAt_isSome t.root k h2
      have hpv : pivot = s.1 := by
        rw [hpiv, if_pos h2, hs]
        rfl
      obtain ⟨hs1', hs2'⟩ := succ_least t.root k i1 h2 s hs
      constructor
      · intro hlt
        rw [hpv] at hlt
        by_contra hc
        have hkq : k < q := by omega
        have := hs2' p hpmem (by omega)
        omega
      · intro hge
        rw [hpv] at hge
        omega
    · have hpv : pivot = k := by
        rw [hpiv, if_neg h2]
      rw [hpv]
      constructor
      · intro hlt
        exact hlt
      · intro hge
        omega
  refine ⟨?_, ?_, hIL, hIR, ?_⟩
  · intro q hq
    rw [hs1, keysOf, hioL] at hq
    obtain ⟨p, hp, hfp⟩ := List.mem_map.mp hq
    have hplt : p.1 < pivot := by
      have := List.mem_takeWhile_imp hp
      simpa using this
    have hmem : q ∈ (inorder (deleteT t k).root).map Prod.fst := by
      refine List.mem_map.mpr ⟨p, (List.takeWhile_sublist _).subset hp, hfp⟩
    have hqlt : q < pivot := by
      rw [← hfp]
      exact hplt
    exact (hkey_bound q hmem).1 hqlt
  · intro q hq
    rw [hs2, keysOf, hioR] at hq
    obtain ⟨p, hp, hfp⟩ := List.mem_map.mp hq
    have hpge : ¬p.1 < pivot := dropWhile_sorted_not_lt pivot _ harr_sorted p hp
    have hmem : q ∈ (inorder (deleteT t k).root).map Prod.fst :=
      List.mem_map.mpr ⟨p, (List.dropWhile_sublist _).subset hp, hfp⟩
    have hqge : ¬q < pivot := by
      rw [← hfp]
      exact hpge
    exact (hkey_bound q hmem).2 hqge
  · have hlsz : (split t k).1.size =
        (((inorder (deleteT t k).root).takeWhile (fun p => p.1 < pivot)).length : Int) := by
      rw [hs1]
      rw [hIL.2.2.2.1, hioL]
    have hrsz : (split t k).2.size =
        (((inorder (deleteT t k).root).dropWhile (fun p => p.1 < pivot)).length : Int) := by
      rw [hs2]
      rw [hIR.2.2.2.1, hioR]
    have hsum : ((inorder (deleteT t k).root).takeWhile (fun p => p.1 < pivot)).length +
        ((inorder (deleteT t k).root).dropWhile (fun p => p.1 < pivot)).length =
        (inorder (deleteT t k).root).length := by
      rw [← List.length_append, List.takeWhile_append_dropWhile]
    rw [hlsz, hrsz, harr] at *
    rw [harr] at hsum
    omega

lemma applyOp_Inv (t : AVLTree) (op : Op) (hI : Inv t) (hv : validOpA t op = true) :
    Inv (applyOp t op) := by
  cases op with
  | ins k v =>
    rw [validOpA] at hv
    simp only [Bool.not_eq_true', decide_eq_false_iff_not] at hv
    exact insert_Inv t k v hI hv
  | fins k v => cases hv
  | del k =>
    rw [validOpA] at hv
    simp only [Bool.and_eq_true, Bool.not_eq_true', Bool.and_eq_false_iff,
      decide_eq_true_eq, decide_eq_false_iff_not] at hv
    refine delete_Inv t k hI hv.1 ?_
    rintro ⟨ha, hb⟩
    rcases hv.2 with hc | hc
    · rw [ha] at hc
      cases hc
    · exact hc hb
  | joinWith t2 k v => cases hv
  | splitL k =>
    rw [validOpA] at hv
    simp only [decide_eq_true_eq] at hv
    exact (split_spec t k hI hv).2.2.1
  | splitR k =>
    rw [validOpA] at hv
    simp only [decide_eq_true_eq] at hv
    exact (split_spec t k hI hv).2.2.2.1

theorem run_Inv (ops : List Op) (t : AVLTree) (hI : Inv t)
    (hv : validSeqA t ops = true) : Inv (run t ops) := by
  induction ops generalizing t with
  | nil => simpa [run] using hI
  | cons op rest ih =>
    rw [validSeqA, Bool.and_eq_true] at hv
    have : run t (op :: rest) = run (applyOp t op) rest := by
      simp [run]
    rw [this]
    exact ih (applyOp t op) (applyOp_Inv t op hI hv.1) hv.2

lemma fingerSpineGo_eq (t : Node) (k v : Int) (h : allLt t k = true) :
    (fingerSpineGo t k v).1 = (insertGo t k v).1 := by
  induction t with
  | ext => rfl
  | node nk nv nh l r ihl ihr =>
    have hcomp : nk < k ∧ allLt l k = true ∧ allLt r k = true := by
      rw [allLt] at h
      simp only [Bool.and_eq_true, decide_eq_true_eq] at h
      exact ⟨h.1.1, h.1.2, h.2⟩
    by_cases hr : r.is_real_node = true
    · simp only [fingerSpineGo, if_pos hr, insertGo,
        if_neg (by omega : ¬k < nk), if_pos hr]
      rw [ihr hcomp.2.2]
    · simp only [fingerSpineGo, if_neg hr]

lemma finger_insert_eq_insert (t : AVLTree) (k v : Int)
    (h : ∀ p ∈ inorder t.root, p.1 < k) :
    (finger_insert t k v).1 = (insert t k v).1 := by
  by_cases hroot : t.root.is_real_node = true
  · have halt : allLt t.root k = true := (allLt_iff _ _).mpr h
    simp only [finger_insert, insert, if_pos hroot]
    rw [fingerSpineGo_eq t.root k v halt]
  · simp only [finger_insert, insert, if_neg hroot]

lemma plug_append (t : Node) (c d : List Frame) :
    plug t (c ++ d) = plug (plug t c) d := by
  induction c generalizing t with
  | nil => rfl
  | cons f rest ih => cases f <;> simp [plug, ih]

lemma attachGo_plug (t : Node) (k v : Int) :
    ∃ ctx, t = plug .ext ctx ∧ attachGo t k v = plug (.node k v 0 .ext .ext) ctx := by
  induction t with
  | ext => exact ⟨[], rfl, rfl⟩
  | node nk nv nh l r ihl ihr =>
    by_cases hk : k < nk
    · by_cases hl : l.is_real_node = true
      · obtain ⟨ctx, h1, h2⟩ := ihl
        refine ⟨ctx ++ [.inL nk nv nh r], ?_, ?_⟩
        · rw [plug_append, ← h1]
          rfl
        · simp only [attachGo, if_pos hk, if_pos hl]
          rw [plug_append, ← h2]
          rfl
      · have he := not_real_eq_ext l hl
        subst he
        refine ⟨[.inL nk nv nh r], rfl, ?_⟩
        simp only [attachGo, if_pos hk, if_neg hl]
        rfl
    · by_cases hr : r.is_real_node = true
      · obtain ⟨ctx, h1, h2⟩ := ihr
        refine ⟨ctx ++ [.inR nk nv nh l], ?_, ?_⟩
        · rw [plug_append, ← h1]
          rfl
        · simp only [attachGo, if_neg hk, if_pos hr]
          rw [plug_append, ← h2]
          rfl
      · have he := not_real_eq_ext r hr
        subst he
        refine ⟨[.inR nk nv nh l], rfl, ?_⟩
        simp only [attachGo, if_neg hk, if_neg hr]
        rfl

lemma SW_u_otherW (a b : SW) : (SW.u a b).otherW = (a.otherW || b.otherW) := rfl

lemma rotateLeftW_otherW (t : Node) : (rotateLeftW t).otherW = false := by
  cases t with
  | ext => rfl
  | node k v h l r => cases r <;> rfl

lemma rotateRightW_otherW (t : Node) : (rotateRightW t).otherW = false := by
  cases t with
  | ext => rfl
  | node k v h l r => cases l <;> rfl

lemma fixNodeW_otherW (t : Node) : (fixNodeW t).otherW = false := by
  cases t with
  | ext => rfl
  | node k v h l r =>
    simp only [fixNodeW, Node.update_height]
    split_ifs <;>
      first
        | rfl
        | simp [SW_u_otherW, rotateLeftW_otherW, rotateRightW_otherW]

lemma leftmostNode_real (t : Node) (h : t.is_real_node = true) :
    (leftmostNode t).is_real_node = true := by
  induction t with
  | ext => simp [Node.is_real_node] at h
  | node k v hh l r ihl ihr =>
    by_cases hl : l.is_real_node = true
    · rw [leftmostNode, if_pos hl]
      exact ihl hl
    · rw [leftmostNode, if_neg hl]
      rfl

lemma insertGoW_otherW (t : Node) (k v : Int) : (insertGoW t k v).otherW = false := by
  induction t with
  | ext => rfl
  | node nk nv nh l r ihl ihr =>
    rw [insertGoW]
    split_ifs <;>
      simp [SW_u_otherW, fixNodeW_otherW, ihl, ihr]

lemma fingerSpineGoW_otherW (t : Node) (k v : Int) :
    (fingerSpineGoW t k v).otherW = false := by
  induction t with
  | ext => rfl
  | node nk nv nh l r ihl ihr =>
    rw [fingerSpineGoW]
    split_ifs <;>
      simp [SW_u_otherW, fixNodeW_otherW, insertGoW_otherW, ihr]

lemma removeMinW_otherW (t : Node) : (removeMinW t).otherW = false := by
  induction t with
  | ext => rfl
  | node k v h l r ihl ihr =>
    rw [removeMinW]
    split_ifs <;>
      simp [SW_u_otherW, fixNodeW_otherW, ihl]

lemma delGoW_otherW (t : Node) (key : Int) (isRoot : Bool) :
    (delGoW t key isRoot).otherW = false := by
  induction t generalizing isRoot with
  | ext => rfl
  | node nk nv nh l r ihl ihr =>
    by_cases hc1 : key < nk
    · rw [delGoW, if_pos hc1]
      simp [SW_u_otherW, fixNodeW_otherW, ihl]
    · by_cases hc2 : nk < key
      · rw [delGoW, if_neg hc1, if_pos hc2]
        simp [SW_u_otherW, fixNodeW_otherW, ihr]
      · by_cases hc3 : (!l.is_real_node || !r.is_real_node) = true
        · rw [delGoW, if_neg hc1, if_neg hc2, if_pos hc3]
          cases isRoot
          · rfl
          · rfl
        · rw [delGoW, if_neg hc1, if_neg hc2, if_neg hc3]
          have hrreal : r.is_real_node = true := by
            by_contra hc
            apply hc3
            have := not_real_eq_ext r hc
            subst this
            simp [Node.is_real_node]
          simp [SW_u_otherW, fixNodeW_otherW, removeMinW_otherW,
            leftmostNode_real r hrreal]

lemma deleteW_otherW (t : AVLTree) (key : Int) : (deleteW t key).otherW = false :=
  delGoW_otherW t.root key true

lemma insertW_otherW (t : AVLTree) (k v : Int) : (insertW t k v).otherW = false := by
  rw [insertW]
  split_ifs
  · exact insertGoW_otherW t.root k v
  · rfl

lemma fingerInsertW_otherW (t : AVLTree) (k v : Int) :
    (fingerInsertW t k v).otherW = false := by
  rw [fingerInsertW]
  split_ifs
  · exact fingerSpineGoW_otherW t.root k v
  · rfl

lemma joinRightW_otherW (t1 : Node) (h2 k v : Int) (t2 : Node) :
    (joinRightW t1 h2 k v t2).otherW = false := by
  induction t1 with
  | ext => simp [joinRightW, SW_u_otherW, fixNodeW_otherW]
  | node ck cv ch cl cr ihl ihr =>
    rw [joinRightW]
    split_ifs <;>
      simp [SW_u_otherW, fixNodeW_otherW, ihr]

lemma joinLeftW_otherW (t2 : Node) (h1 k v : Int) (t1 : Node) :
    (joinLeftW t2 h1 k v t1).otherW = false := by
  induction t2 with
  | ext => simp [joinLeftW, SW_u_otherW, fixNodeW_otherW]
  | node ck cv ch cl cr ihl ihr =>
    rw [joinLeftW]
    split_ifs <;>
      simp [SW_u_otherW, fixNodeW_otherW, ihl]

lemma joinW_otherW (t1 t2 : AVLTree) (k v : Int) : (joinW t1 t2 k v).otherW = false := by
  rw [joinW]
  split_ifs
  · exact insertW_otherW t2 k v
  · exact insertW_otherW t1 k v
  · exact joinRightW_otherW t1.root t2.root.hF k v t2.root
  · exact joinLeftW_otherW t2.root t1.root.hF k v t1.root

lemma insFoldW_otherW (t : AVLTree) (ps : List (Int × Int)) :
    (insFoldW t ps).otherW = false := by
  induction ps generalizing t with
  | nil => rfl
  | cons p rest ih =>
    rw [insFoldW]
    simp [SW_u_otherW, insertW_otherW, ih]

lemma splitW_otherW (t : AVLTree) (key : Int) : (splitW t key).otherW = false := by
  rw [splitW]
  simp [SW_u_otherW, deleteW_otherW, insFoldW_otherW]

end AVL3
namespace AVL3

/-- Concrete-test scaffolding: the tree obtained by inserting the given keys
in order into an empty tree, each key `k` carrying value `10 * k`. -/
def mkT (ks : List Int) : AVLTree :=
  ks.foldl (fun t k => (insert t k (10 * k)).1) emptyT

/-- C3 amended: with every key of `self` strictly below `key` and `key`
strictly below every key of the argument tree — the direction the code
actually implements — `join` leaves `self` holding exactly the union of the
two pair sequences plus `(key, value)` in order, with the size field the sum
of the two sizes plus one and the cached max equal to the argument tree's
(that is, the greater) cached max; if either input tree is empty the result
is exactly an insert of `(key, value)` into the non-empty tree. -/
theorem C3_amended_join_spec (t1 t2 : AVLTree) (k v : Int)
    (h1 : ∀ p ∈ inorder t1.root, p.1 < k)
    (h2 : ∀ p ∈ inorder t2.root, k < p.1)
    (hm2 : t2.maxP = rightmostPair t2.root) :
    (t1.root.is_real_node = true → t2.root.is_real_node = true →
      inorder (join t1 t2 k v).root = inorder t1.root ++ (k, v) :: inorder t2.root ∧
      (join t1 t2 k v).size = t1.size + t2.size + 1 ∧
      (join t1 t2 k v).maxP = t2.maxP) ∧
    (t1.root.is_real_node = false → join t1 t2 k v = (insert t2 k v).1) ∧
    (t2.root.is_real_node = false → t1.root.is_real_node = true →
      join t1 t2 k v = (insert t1 k v).1) := by
  refine ⟨?_, ?_, ?_⟩
  · intro hr1 hr2
    have hne2 : inorder t2.root ≠ [] := by
      rw [Ne, inorder_eq_nil_iff]
      intro he
      rw [he] at hr2
      simp [Node.is_real_node] at hr2
    have hglast : ∀ root' : Node,
        inorder root' = inorder t1.root ++ (k, v) :: inorder t2.root →
        rightmostPair root' = t2.maxP := by
      intro root' hio
      rw [rightmostPair_eq_getLast, hio, List.getLast?_append]
      cases hgl : (inorder t2.root).getLast? with
      | none => exact absurd (List.getLast?_eq_none_iff.mp hgl) hne2
      | some x =>
        rw [List.getLast?_cons, hgl]
        rw [hm2, rightmostPair_eq_getLast, hgl]
        rfl
    by_cases hcmp : t1.root.hF > t2.root.hF
    · have hj : join t1 t2 k v =
          { root := joinRight t1.root t2.root.hF k v t2.root,
            size := t1.size + t2.size + 1,
            maxP := rightmostPair (joinRight t1.root t2.root.hF k v t2.root) } := by
        rw [join, if_neg (by simp [hr1]), if_neg (by simp [hr2]), if_pos hcmp]
      rw [hj]
      refine ⟨joinRight_inorder _ _ _ _ _, rfl, ?_⟩
      exact hglast _ (joinRight_inorder _ _ _ _ _)
    · have hj : join t1 t2 k v =
          { root := joinLeft t2.root t1.root.hF k v t1.root,
            size := t1.size + t2.size + 1,
            maxP := rightmostPair (joinLeft t2.root t1.root.hF k v t1.root) } := by
        rw [join, if_neg (by simp [hr1]), if_neg (by simp [hr2]), if_neg hcmp]
      rw [hj]
      refine ⟨joinLeft_inorder _ _ _ _ _, rfl, ?_⟩
      exact hglast _ (joinLeft_inorder _ _ _ _ _)
  · intro hr1
    rw [join, if_pos hr1]
  · intro hr2 hr1
    rw [join, if_neg (by simp [hr1]), if_pos hr2]

/-- C4 amended: under the invariants, deleting the node holding `k` removes
exactly the pair that node held (the in-order sequence loses precisely its
first — unique — pair with key `k`), decrements the size field by exactly
one, and when the *argument node itself* is the cached max the max is
recomputed as the new rightmost real node; however, when the deletion
proceeds by successor swap and the successor object is the cached max, the
max pointer is left holding the detached successor object, which now carries
the argument's old pair `(k, value at k)`, and is not recomputed. -/
theorem C4_amended_delete_spec (t : AVLTree) (k : Int) (hI : Inv t)
    (hk : k ∈ keysOf t) :
    inorder (deleteT t k).root = listDel k (inorder t.root) ∧
    (deleteT t k).size = t.size - 1 ∧
    (maxKeyOf t = some k → (deleteT t k).maxP = rightmostPair (deleteT t k).root) ∧
    (∀ s, hasTwoAt t.root k = true → succPairAt t.root k = some s →
      s.1 = ((maxKeyOf t).getD 0) →
      (deleteT t k).maxP = some (k, (lookupV t.root k).getD 0)) := by
  obtain ⟨i1, i2, i3, i4, i5⟩ := hI
  have hroot := keys_mem_root_real t k hk
  have hdo := delGo_inorder t.root k i1 hk
  have hR : (deleteT t k).root = delGo t.root k := rfl
  have hM : (deleteT t k).maxP = deleteMaxP t k := rfl
  cases hm : t.maxP with
  | none =>
    rw [hm] at i5
    have := (rightmostPair_eq_none_iff t.root).mp i5.symm
    rw [this] at hroot
    simp [Node.is_real_node] at hroot
  | some m =>
    refine ⟨by rw [hR]; exact hdo, rfl, ?_, ?_⟩
    · intro hmx
      rw [maxKeyOf, hm] at hmx
      have hkm : k = m.1 := by
        simp only [Option.map_some'] at hmx
        exact (Option.some.injEq _ _ |>.mp hmx).symm
      rw [hM, hR, deleteMaxP]
      by_cases h2 : hasTwoAt t.root k = true
      · rw [if_pos h2]
        obtain ⟨s, hs⟩ := succPairAt_isSome t.root k h2
        simp only [hs, hm]
        have hsk := (succ_least t.root k i1 h2 s hs).1
        by_cases hsm : s.1 = m.1
        · omega
        · rw [if_neg hsm, if_pos hkm]
      · rw [if_neg h2]
        simp only [hm]
        rw [if_pos hkm]
    · intro s h2 hs hsm
      rw [hM, deleteMaxP, if_pos h2]
      simp only [hs, hm]
      rw [maxKeyOf, hm] at hsm
      simp only [Option.map_some', Option.getD_some] at hsm
      rw [if_pos hsm]

/-- C5 amended: under the invariants and freshness of `k`, `insert` attaches
a fresh leaf (height 0, sentinel children) in place of a sentinel hole at the
BST insertion point (the in-order sequence becomes the sorted-position
insertion of the new pair), increments the size field by one, and updates the
cached max exactly when the tree was empty or `k` exceeds the current maximum
key; `finger_insert` coincides with `insert` only when `k` exceeds every key
present — for smaller keys its descent from the max node without any upward
climb can attach the node away from the BST insertion point. -/
theorem C5_amended_insert_spec (t : AVLTree) (k v : Int) (hI : Inv t)
    (hk : k ∉ keysOf t) :
    inorder (insert t k v).1.root = listIns k v (inorder t.root) ∧
    (∃ ctx, t.root = plug .ext ctx ∧
      attachGo t.root k v = plug (.node k v 0 .ext .ext) ctx) ∧
    (insert t k v).1.size = t.size + 1 ∧
    ((insert t k v).1.maxP = some (k, v) ↔
      (t.maxP = none ∨ ∃ m, t.maxP = some m ∧ m.1 < k)) ∧
    ((insert t k v).1.maxP ≠ some (k, v) → (insert t k v).1.maxP = t.maxP) ∧
    ((∀ p ∈ inorder t.root, p.1 < k) →
      (finger_insert t k v).1 = (insert t k v).1) := by
  obtain ⟨i1, i2, i3, i4, i5⟩ := hI
  refine ⟨insert_inorder t k v i1, attachGo_plug t.root k v, ?_, ?_, ?_,
    finger_insert_eq_insert t k v⟩
  · by_cases hroot : t.root.is_real_node = true
    · simp only [insert, if_pos hroot]
    · have he := not_real_eq_ext _ hroot
      simp only [insert, if_neg hroot]
      rw [i4, he]
      rfl
  · by_cases hroot : t.root.is_real_node = true
    · simp only [insert, if_pos hroot]
      cases hm : t.maxP with
      | none =>
        rw [hm] at i5
        have := (rightmostPair_eq_none_iff t.root).mp i5.symm
        rw [this] at hroot
        simp [Node.is_real_node] at hroot
      | some m =>
        have hmk : m.1 ∈ keysOf t := by
          rw [keysOf]
          refine List.mem_map.mpr ⟨m, ?_, rfl⟩
          apply List.mem_of_getLast?_eq_some
          rw [← rightmostPair_eq_getLast, ← i5, hm]
        simp only [hm]
        by_cases hgt : k > m.1
        · rw [if_pos hgt]
          constructor
          · intro _
            exact Or.inr ⟨m, rfl, by omega⟩
          · intro _
            rfl
        · rw [if_neg hgt]
          constructor
          · intro hcase
            have hmv : m = (k, v) := Option.some_inj.mp hcase
            rw [hmv] at hmk
            exact absurd hmk hk
          · rintro (hcase | ⟨m', hm', hlt⟩)
            · cases hcase
            · have : m = m' := Option.some_inj.mp hm'
              rw [this] at hgt
              omega
    · simp only [insert, if_neg hroot]
      have he := not_real_eq_ext _ hroot
      rw [he] at i5
      constructor
      · intro _
        exact Or.inl i5
      · intro _
        trivial
  · by_cases hroot : t.root.is_real_node = true
    · simp only [insert, if_pos hroot]
      cases hm : t.maxP with
      | none =>
        rw [hm] at i5
        have := (rightmostPair_eq_none_iff t.root).mp i5.symm
        rw [this] at hroot
        simp [Node.is_real_node] at hroot
      | some m =>
        simp only [hm]
        by_cases hgt : k > m.1
        · rw [if_pos hgt]
          intro hc
          exact absurd rfl hc
        · rw [if_neg hgt]
          intro _
          rfl
    · simp only [insert, if_neg hroot]
      intro hc
      exact absurd rfl hc


/-- C10: `delete` called with `None` or with the sentinel returns immediately
and leaves root, size and max unchanged: the guard of lines 232-237 fires
before any mutation. -/
theorem C10_delete_sentinel_noop (t : AVLTree) :
    deleteArg t none = t ∧ deleteArg t (some .ext) = t :=
  ⟨rfl, rfl⟩

/-- C8: under each rotation's own precondition — the pivot's right child real
for a left rotation, the pivot's left child real for a right rotation —
rotating a pivot sitting in an arbitrary position of a larger tree (`ctx` is
the stack of ancestors) leaves the in-order sequence of (key, value) pairs of
the whole tree unchanged.  The other child of the pivot is unconstrained and
may be the sentinel. -/
theorem C8_rotations_preserve_inorder (ctx : List Frame) (k v h : Int)
    (l r : Node) :
    (r.is_real_node = true →
      inorder (plug (rotate_left (.node k v h l r)) ctx) =
        inorder (plug (.node k v h l r) ctx)) ∧
    (l.is_real_node = true →
      inorder (plug (rotate_right (.node k v h l r)) ctx) =
        inorder (plug (.node k v h l r) ctx)) :=
  ⟨fun _ => plug_congr ctx _ _ (inorder_rotate_left _),
   fun _ => plug_congr ctx _ _ (inorder_rotate_right _)⟩

/-- Witness for C8 at concrete pivots whose other child is the sentinel — the
shapes the single rotations after a straight-line insert actually rotate
(e.g. the left rotation at 10 fixing insert 10, 20, 30) — each inside a
concrete ancestor context. -/
theorem C8_rotations_preserve_inorder_witness :
    ((Node.node 2 20 0 .ext .ext).is_real_node = true ∧
      inorder (plug (rotate_left (.node 1 10 1 .ext (.node 2 20 0 .ext .ext)))
          [Frame.inL 5 50 2 .ext]) =
        inorder (plug (.node 1 10 1 .ext (.node 2 20 0 .ext .ext))
          [Frame.inL 5 50 2 .ext])) ∧
    ((Node.node 1 10 0 .ext .ext).is_real_node = true ∧
      inorder (plug (rotate_right (.node 2 20 1 (.node 1 10 0 .ext .ext) .ext))
          [Frame.inR 0 0 2 .ext]) =
        inorder (plug (.node 2 20 1 (.node 1 10 0 .ext .ext) .ext)
          [Frame.inR 0 0 2 .ext])) :=
  ⟨⟨rfl, (C8_rotations_preserve_inorder [Frame.inL 5 50 2 .ext] 1 10 1 .ext
      (.node 2 20 0 .ext .ext)).1 rfl⟩,
   ⟨rfl, (C8_rotations_preserve_inorder [Frame.inR 0 0 2 .ext] 2 20 1
      (.node 1 10 0 .ext .ext) .ext).2 rfl⟩⟩

/-- C7: the loop of `AVLTree.search` (lines 89-111) increments its counter on
the sentinel edge that ends an unsuccessful descent, so an absent key in the
three-node tree {20, 10, 30} reports path length 3, not the 2 the claim (and
`src/test.py`) expects; hits and the empty tree behave as claimed. -/
theorem C7_search_path_length_bug :
    search (mkT [20, 10, 30]) 30 = (some (30, 300), 2) ∧
    search (mkT [20, 10, 30]) 15 = (none, 3) ∧
    search emptyT 15 = (none, 1) := by
  decide

/-- C6: `finger_search` of src/search.py climbs the ancestor chain with
`node.parent` while `key < node.key`, overshooting to the sentinel above the
root whenever `key` is smaller than the root's key, and then reports the key
absent — here key 10 is present in {20, 10, 30} and found by `search`, yet
`finger_search` returns an absent result. -/
theorem C6_finger_search_miss_bug :
    finger_search (mkT [20, 10, 30]) 10 = (none, 3) ∧
    search (mkT [20, 10, 30]) 10 = (some (10, 100), 2) ∧
    finger_search (mkT [20, 10, 30]) 30 = (some (30, 300), 1) := by
  decide

/-- C9 counterexample: deleting the leaf 10 from the tree {20, 10}
(`_delete_single_child`, line 266) executes `child.parent = node.parent` with
`child` the sentinel: a parent-field write onto EXT. -/
theorem C9_counterexample : (deleteW (mkT [20, 10]) 10).parentW = true := by
  decide

/-- C9 amended: no public operation ever writes a key, value, height, left or
right field of the sentinel — only its parent field is written (by
`_delete_single_child` and `_connect_child` when the attached child is the
sentinel). -/
theorem C9_amended_sentinel_writes :
    (∀ t k v, (insertW t k v).otherW = false) ∧
    (∀ t k v, (fingerInsertW t k v).otherW = false) ∧
    (∀ t k, (deleteW t k).otherW = false) ∧
    (∀ t1 t2 k v, (joinW t1 t2 k v).otherW = false) ∧
    (∀ t k, (splitW t k).otherW = false) ∧
    (∀ n, (rotateLeftW n).otherW = false) ∧
    (∀ n, (rotateRightW n).otherW = false) :=
  ⟨insertW_otherW, fingerInsertW_otherW, deleteW_otherW, joinW_otherW,
   splitW_otherW, rotateLeftW_otherW, rotateRightW_otherW⟩

/-- C3 counterexample: with the argument order reversed — all keys of `self`
above `key`, all keys of the argument below — `join` (lines 286-358) grafts
the trees in the fixed left-below-right layout it assumes, producing a tree
that violates BST order and whose cached max is the smaller tree's minimum;
the claim's "either direction of the argument order" fails. -/
theorem C3_counterexample :
    (join (mkT [30]) (mkT [10]) 20 0).maxP = some (10, 100) ∧
    bstOk (join (mkT [30]) (mkT [10]) 20 0).root = false := by
  decide

/-- Witness for C3's amended statement at `self` = {5}, argument = {30, 40},
key 10. -/
theorem C3_amended_join_spec_witness :
    (∀ p ∈ inorder (mkT [5]).root, p.1 < 10) ∧
    (∀ p ∈ inorder (mkT [30, 40]).root, (10 : Int) < p.1) ∧
    (mkT [30, 40]).maxP = rightmostPair (mkT [30, 40]).root ∧
    (inorder (join (mkT [5]) (mkT [30, 40]) 10 7).root =
        inorder (mkT [5]).root ++ (10, 7) :: inorder (mkT [30, 40]).root ∧
      (join (mkT [5]) (mkT [30, 40]) 10 7).size =
        (mkT [5]).size + (mkT [30, 40]).size + 1 ∧
      (join (mkT [5]) (mkT [30, 40]) 10 7).maxP = (mkT [30, 40]).maxP) :=
  ⟨by decide, by decide, by decide,
   (C3_amended_join_spec (mkT [5]) (mkT [30, 40]) 10 7 (by decide) (by decide)
      (by decide)).1 (by decide) (by decide)⟩

/-- C4 counterexample: deleting key 10 from {10, 5, 20} goes through the
successor swap and the spliced-out successor object (key 20) is the cached
max, so `_max` is left pointing at the detached object — which now carries the
deleted pair (10, 100) — instead of being recomputed to the new rightmost
node (20, 200). -/
theorem C4_counterexample :
    (deleteT (mkT [10, 5, 20]) 10).maxP = some (10, 100) ∧
    rightmostPair (deleteT (mkT [10, 5, 20]) 10).root = some (20, 200) := by
  decide

/-- Witness for C4's amended statement at the tree {20, 10, 30}, deleting 10. -/
theorem C4_amended_delete_spec_witness :
    Inv (mkT [20, 10, 30]) ∧ (10 : Int) ∈ keysOf (mkT [20, 10, 30]) ∧
    inorder (deleteT (mkT [20, 10, 30]) 10).root =
      listDel 10 (inorder (mkT [20, 10, 30]).root) ∧
    (deleteT (mkT [20, 10, 30]) 10).size = (mkT [20, 10, 30]).size - 1 :=
  have hI : Inv (mkT [20, 10, 30]) :=
    ⟨by decide, by decide, by decide, by decide, by decide⟩
  have h := C4_amended_delete_spec (mkT [20, 10, 30]) 10 hI (by decide)
  ⟨hI, by decide, h.1, h.2.1⟩

/-- C2: under the structural invariants, splitting at a present key yields
trees whose keys lie strictly below, respectively strictly above, the split
key; the split key survives in neither output; both outputs satisfy the
structural invariants; and the sizes sum to the original size minus one. -/
theorem C2_split_correct (t : AVLTree) (k : Int) (hI : Inv t)
    (hk : k ∈ keysOf t) :
    (∀ q ∈ keysOf (split t k).1, q < k) ∧
    (∀ q ∈ keysOf (split t k).2, k < q) ∧
    k ∉ keysOf (split t k).1 ∧ k ∉ keysOf (split t k).2 ∧
    Inv (split t k).1 ∧ Inv (split t k).2 ∧
    (split t k).1.size + (split t k).2.size + 1 = t.size := by
  obtain ⟨h1, h2, hIL, hIR, hsz⟩ := split_spec t k hI hk
  exact ⟨h1, h2, fun hmem => lt_irrefl k (h1 k hmem),
    fun hmem => lt_irrefl k (h2 k hmem), hIL, hIR, hsz⟩

/-- Witness for C2 at the claim scenario: a 6-node tree split at the present
key 20. -/
theorem C2_split_correct_witness :
    Inv (mkT [40, 20, 60, 10, 30, 50]) ∧
    (20 : Int) ∈ keysOf (mkT [40, 20, 60, 10, 30, 50]) ∧
    (split (mkT [40, 20, 60, 10, 30, 50]) 20).1.size +
        (split (mkT [40, 20, 60, 10, 30, 50]) 20).2.size + 1 =
      (mkT [40, 20, 60, 10, 30, 50]).size :=
  have hI : Inv (mkT [40, 20, 60, 10, 30, 50]) :=
    ⟨by decide, by decide, by decide, by decide, by decide⟩
  ⟨hI, by decide,
   (C2_split_correct (mkT [40, 20, 60, 10, 30, 50]) 20 hI
      (by decide)).2.2.2.2.2.2⟩

/-- C5 counterexample: `finger_insert` descends from the `_max` node but its
loop (lines 198-218) only ever moves into children, never up to a parent, so
inserting key 15 into {20, 10, 30} attaches the new node under 30 — away from
the BST insertion point — destroying BST order and diverging from `insert`. -/
theorem C5_counterexample :
    inorder (finger_insert (mkT [20, 10, 30]) 15 7).1.root ≠
      inorder (insert (mkT [20, 10, 30]) 15 7).1.root ∧
    bstOk (finger_insert (mkT [20, 10, 30]) 15 7).1.root = false := by
  decide

/-- Witness for C5's amended statement: inserting the fresh key 25 into the
tree {20, 10, 30}. -/
theorem C5_amended_insert_spec_witness :
    Inv (mkT [20, 10, 30]) ∧ (25 : Int) ∉ keysOf (mkT [20, 10, 30]) ∧
    inorder (insert (mkT [20, 10, 30]) 25 7).1.root =
      listIns 25 7 (inorder (mkT [20, 10, 30]).root) ∧
    (insert (mkT [20, 10, 30]) 25 7).1.size = (mkT [20, 10, 30]).size + 1 :=
  have hI : Inv (mkT [20, 10, 30]) :=
    ⟨by decide, by decide, by decide, by decide, by decide⟩
  have h := C5_amended_insert_spec (mkT [20, 10, 30]) 25 7 hI (by decide)
  ⟨hI, by decide, h.1, h.2.2.1⟩

/-- C1 counterexample: a `finger_insert` of key 15 into the tree built by
inserting 20, 10, 30 leaves a tree violating BST order, so the claim fails
for sequences containing `finger_insert`. -/
theorem C1_counterexample :
    bstOk (run emptyT [.ins 20 1, .ins 10 2, .ins 30 3, .fins 15 4]).root =
      false := by
  decide

/-- C1 amended: restricted to `insert` of a fresh key, `delete` of a present
key whose removal does not go through a successor swap that detaches the
cached max, and `split` at a present key (keeping either side), every
operation sequence from the empty tree preserves BST order, AVL balance,
cached heights, the size field and the cached max. -/
theorem C1_amended_invariant_preservation (ops : List Op)
    (hv : validSeqA emptyT ops = true) : Inv (run emptyT ops) :=
  run_Inv ops emptyT Inv_emptyT hv

/-- Witness for C1's amended statement on a five-operation sequence mixing
inserts, a delete and a split. -/
theorem C1_amended_invariant_preservation_witness :
    validSeqA emptyT
        [.ins 20 1, .ins 10 2, .ins 30 3, .del 10, .splitL 30] = true ∧
    Inv (run emptyT [.ins 20 1, .ins 10 2, .ins 30 3, .del 10, .splitL 30]) :=
  ⟨by decide,
   C1_amended_invariant_preservation
     [.ins 20 1, .ins 10 2, .ins 30 3, .del 10, .splitL 30] (by decide)⟩

/-- Even in the direction `join` supports (all of `self` below the key below
all of the argument), the rebalancing after the graft is insufficient: joining
two trees satisfying every invariant can leave a node with balance factor
outside {-1, 0, 1}.  This bounds how far C1 and C3 could be repaired. -/
theorem join_balance_violation :
    Inv (mkT [20, 10, 30, 5, 15, 25, 32, 3, 7, 31, 33]) ∧
    Inv (mkT [60, 50, 70, 45, 55]) ∧
    bstOk (join (mkT [20, 10, 30, 5, 15, 25, 32, 3, 7, 31, 33])
        (mkT [60, 50, 70, 45, 55]) 38 0).root = true ∧
    heightsOk (join (mkT [20, 10, 30, 5, 15, 25, 32, 3, 7, 31, 33])
        (mkT [60, 50, 70, 45, 55]) 38 0).root = true ∧
    balancedOk (join (mkT [20, 10, 30, 5, 15, 25, 32, 3, 7, 31, 33])
        (mkT [60, 50, 70, 45, 55]) 38 0).root = false :=
  ⟨⟨by decide, by decide, by decide, by decide, by decide⟩,
   ⟨by decide, by decide, by decide, by decide, by decide⟩,
   by decide, by decide, by decide⟩

end AVL3
